import Mathlib

/-!
Verification development for the GitNexus ingestion and embedding subsystem.

The embedding subsystem (embedder singleton, embedding pipeline, semantic
search, KuzuDB schema) is embedded from the TypeScript sources
`src/core/kuzu/schema.ts`, the embedder module and the embedding-pipeline
module.  The ingestion-pipeline core (StructureBuilder, AST cache,
SymbolTable, ImportResolver, CallResolver, orchestrator) is not part of the
available sources; those components are modelled from the specification and
are marked `Modelled from the spec:` in their doc comments.

Machine floats carry no arithmetic anywhere in the verified fragment, so
embedding scalars are kept as an opaque type parameter `α`.
-/

namespace GitNexus

/-- A dynamically typed value as it appears in a KuzuDB query-result row. -/
inductive JsValue where
  | str (s : String)
  | num (n : Int)
  deriving DecidableEq, Repr

/-- A query-result row as consumed by the row mappers: named property access
and positional element access, each possibly absent (`none` models both
JavaScript `null` and `undefined`, the two values the `??` operator skips). -/
structure QueryRow where
  named : String → Option JsValue
  pos : Nat → Option JsValue

/-- Output record of `queryEmbeddableNodes`' row mapping. -/
structure EmbeddableNode where
  id : Option JsValue
  name : Option JsValue
  label : Option JsValue
  filePath : Option JsValue
  content : JsValue
  startLine : Option JsValue
  endLine : Option JsValue
  deriving DecidableEq, Repr

/-- The row mapping inside `queryEmbeddableNodes`:
`id: row.id ?? row[0]`, …, `content: row.content ?? row[4] ?? ''`. -/
def mapEmbeddableRow (row : QueryRow) : EmbeddableNode where
  id := row.named "id" <|> row.pos 0
  name := row.named "name" <|> row.pos 1
  label := row.named "label" <|> row.pos 2
  filePath := row.named "filePath" <|> row.pos 3
  content := (row.named "content" <|> row.pos 4).getD (.str "")
  startLine := row.named "startLine" <|> row.pos 5
  endLine := row.named "endLine" <|> row.pos 6

/-- Output record of `semanticSearch`'s row mapping. -/
structure SemanticSearchResult where
  nodeId : Option JsValue
  name : Option JsValue
  label : Option JsValue
  filePath : Option JsValue
  distance : Option JsValue
  startLine : Option JsValue
  endLine : Option JsValue
  deriving DecidableEq, Repr

/-- The row mapping inside `semanticSearch`:
`nodeId: row.nodeId ?? row[0]`, …, `distance: row.distance ?? row[4]`. -/
def mapSemanticSearchRow (row : QueryRow) : SemanticSearchResult where
  nodeId := row.named "nodeId" <|> row.pos 0
  name := row.named "name" <|> row.pos 1
  label := row.named "label" <|> row.pos 2
  filePath := row.named "filePath" <|> row.pos 3
  distance := row.named "distance" <|> row.pos 4
  startLine := row.named "startLine" <|> row.pos 5
  endLine := row.named "endLine" <|> row.pos 6

/-! ## KuzuDB state and the node-embedding update

`updateNodeEmbedding` issues the Cypher statement
`MATCH (n:CodeNode {id: nodeId}) SET n.embedding = CAST(vec AS FLOAT[384])`.
We embed the KuzuDB database state (one polymorphic node table, one
polymorphic edge table, per `NODE_SCHEMA` / `EDGE_SCHEMA`) and the
denotation of that statement on it. -/

/-- A row of the `CodeNode` table, per `NODE_SCHEMA`: columns id, label,
name, filePath, startLine, endLine, content, embedding FLOAT[384].
`α` stands for the machine-float scalar type. -/
structure NodeRow (α : Type) where
  id : String
  label : String
  name : String
  filePath : String
  startLine : Int
  endLine : Int
  content : String
  embedding : Option (List α)
  deriving DecidableEq, Repr

/-- A row of the `CodeRelation` table, per `EDGE_SCHEMA`: FROM node, TO
node, type column. -/
structure EdgeRow where
  fromId : String
  toId : String
  type : String
  deriving DecidableEq, Repr

/-- The database state: the two polymorphic tables. -/
structure GraphDB (α : Type) where
  nodes : List (NodeRow α)
  edges : List EdgeRow
  deriving DecidableEq, Repr

/-- Denotation of the single query issued by `updateNodeEmbedding`: match
the node whose `id` column equals `nodeId` and SET its `embedding` column
to the given vector.  Nothing else is touched. -/
def updateNodeEmbedding (db : GraphDB α) (nodeId : String) (embedding : List α) :
    GraphDB α where
  nodes := db.nodes.map fun n =>
    if n.id = nodeId then { n with embedding := some embedding } else n
  edges := db.edges

/-- `batchUpdateEmbeddings`: processes the updates one by one, each through
`updateNodeEmbedding`. -/
def batchUpdateEmbeddings (db : GraphDB α) (updates : List (String × List α)) :
    GraphDB α :=
  updates.foldl (fun d u => updateNodeEmbedding d u.1 u.2) db

/-- Every column of a node row except `embedding`, bundled for frame
statements. -/
def NodeRow.nonEmbeddingFields (n : NodeRow α) :
    String × String × String × String × Int × Int × String :=
  (n.id, n.label, n.name, n.filePath, n.startLine, n.endLine, n.content)

theorem updateNodeEmbedding_edges (db : GraphDB α) (nodeId : String) (v : List α) :
    (updateNodeEmbedding db nodeId v).edges = db.edges := rfl

theorem updateNodeEmbedding_frame (db : GraphDB α) (nodeId : String) (v : List α)
    (i : Nat) :
    ((updateNodeEmbedding db nodeId v).nodes[i]?).map NodeRow.nonEmbeddingFields
      = (db.nodes[i]?).map NodeRow.nonEmbeddingFields := by
  show ((db.nodes.map _)[i]?).map NodeRow.nonEmbeddingFields = _
  rw [List.getElem?_map, Option.map_map]
  cases h : db.nodes[i]? with
  | none => rfl
  | some n =>
    simp only [Option.map_some', Function.comp_apply]
    by_cases hid : n.id = nodeId <;> simp [hid, NodeRow.nonEmbeddingFields]

theorem batchUpdateEmbeddings_edges (db : GraphDB α) (updates : List (String × List α)) :
    (batchUpdateEmbeddings db updates).edges = db.edges := by
  induction updates generalizing db with
  | nil => rfl
  | cons u us ih => simpa [batchUpdateEmbeddings] using ih (updateNodeEmbedding db u.1 u.2)

theorem batchUpdateEmbeddings_frame (db : GraphDB α) (updates : List (String × List α))
    (i : Nat) :
    ((batchUpdateEmbeddings db updates).nodes[i]?).map NodeRow.nonEmbeddingFields
      = (db.nodes[i]?).map NodeRow.nonEmbeddingFields := by
  induction updates generalizing db with
  | nil => rfl
  | cons u us ih =>
    calc ((batchUpdateEmbeddings (updateNodeEmbedding db u.1 u.2) us).nodes[i]?).map
            NodeRow.nonEmbeddingFields
        = ((updateNodeEmbedding db u.1 u.2).nodes[i]?).map NodeRow.nonEmbeddingFields :=
          ih (updateNodeEmbedding db u.1 u.2)
      _ = (db.nodes[i]?).map NodeRow.nonEmbeddingFields :=
          updateNodeEmbedding_frame db u.1 u.2 i

/-! ## Embedder module

Embeds the module-level singleton state of the embedder
(`embedderInstance`, `isInitializing`, `initPromise`) and the operations
`initEmbedder`, `isEmbedderReady`, `embedText`, `embedBatch`,
`embeddingToArray`.  Pipeline instances and promises are abstracted to
identifiers; the external model load is a separate resolution step. -/

/-- `DEFAULT_EMBEDDING_CONFIG.dimensions`.  Modelled from the spec: the
`types` module is not among the sources; the model is
snowflake-arctic-embed-xs with 384-dimensional output, matching the
`FLOAT[384]` column of `NODE_SCHEMA`. -/
def dimensions : Nat := 384

/-- The `embedding FLOAT[384]` column type of `NODE_SCHEMA`, also the cast
target in the `SET n.embedding = CAST(... AS FLOAT[384])` statement of
`updateNodeEmbedding`. -/
def nodeSchemaEmbeddingType : String := "FLOAT[384]"

/-- The module-level mutable state of the embedder module. -/
structure EmbedderState where
  embedderInstance : Option Nat
  isInitializing : Bool
  initPromise : Option Nat
  deriving DecidableEq, Repr

/-- What a single `initEmbedder` call hands back to its caller. -/
inductive InitResult where
  /-- The already-loaded instance was returned (first early return). -/
  | cached (inst : Nat)
  /-- The in-flight promise was returned (second early return). -/
  | inflight (promise : Nat)
  /-- A fresh load was started and its promise returned. -/
  | started (promise : Nat)
  deriving DecidableEq, Repr

/-- One `initEmbedder` call: result, state after the synchronous part of
the call, and the number of model loads the call starts.  `freshPromise`
names the promise a fresh load would allocate. -/
def initEmbedder (s : EmbedderState) (freshPromise : Nat) :
    InitResult × EmbedderState × Nat :=
  match s.embedderInstance with
  | some inst => (.cached inst, s, 0)
  | none =>
    if h : s.isInitializing ∧ s.initPromise.isSome then
      (.inflight (s.initPromise.get h.2), s, 0)
    else
      (.started freshPromise,
        { s with isInitializing := true, initPromise := some freshPromise }, 1)

/-- Resolution of the in-flight initialization: on success the loaded
instance is stored and `isInitializing` cleared (the `finally` block); on
failure the `catch` block clears all three state variables. -/
def resolveInit (s : EmbedderState) (outcome : Option Nat) : EmbedderState :=
  match outcome with
  | some inst =>
    { s with embedderInstance := some inst, isInitializing := false }
  | none =>
    { embedderInstance := none, isInitializing := false, initPromise := none }

/-- `isEmbedderReady`: `embedderInstance !== null`. -/
def isEmbedderReady (s : EmbedderState) : Bool :=
  s.embedderInstance.isSome

/-- Behaviour of a loaded feature-extraction pipeline: `run` is the flat
`result.data` tensor buffer for a batch of texts, `single` the output
vector for one text (`embedText`).  `α` is the machine-float scalar type. -/
structure EmbedderModel (α : Type) where
  run : List String → List α
  single : String → List α

/-- The slicing loop of `embedBatch`: the i-th vector is
`data.slice(i * dimensions, i * dimensions + dimensions)`. -/
def embedSlices (e : EmbedderModel α) (texts : List String) : List (List α) :=
  (List.range texts.length).map fun i =>
    ((e.run texts).drop (i * dimensions)).take dimensions

/-- `embedBatch`: empty input returns `[]` before `getEmbedder` is ever
consulted; otherwise `getEmbedder` throws when no instance exists, else the
flat model output is cut into per-text slices. -/
def embedBatch (emb : Option (EmbedderModel α)) (texts : List String) :
    Except String (List (List α)) :=
  if texts.isEmpty then .ok []
  else
    match emb with
    | none => .error "Embedder not initialized. Call initEmbedder() first."
    | some e => .ok (embedSlices e texts)

theorem embedSlices_length (e : EmbedderModel α) (texts : List String) :
    (embedSlices e texts).length = texts.length := by
  simp [embedSlices]

theorem embedSlices_getElem? (e : EmbedderModel α) (texts : List String)
    (i : Nat) (hi : i < texts.length) :
    (embedSlices e texts)[i]?
      = some (((e.run texts).drop (i * dimensions)).take dimensions) := by
  simp [embedSlices, List.getElem?_map, List.getElem?_range hi]

theorem embedSlices_vec_length (e : EmbedderModel α) (texts : List String)
    (hlen : (e.run texts).length = texts.length * dimensions)
    (v : List α) (hv : v ∈ embedSlices e texts) :
    v.length = dimensions := by
  simp only [embedSlices, List.mem_map, List.mem_range] at hv
  obtain ⟨i, hi, rfl⟩ := hv
  simp only [List.length_take, List.length_drop, hlen, dimensions]
  omega

/-! ## Embedding pipeline

`runEmbeddingPipeline` is embedded as the trace of observable actions it
performs after a successful `initEmbedder`: progress callbacks, `embedBatch`
invocations, `updateNodeEmbedding` queries and vector-index creation.  The
model-download progress callbacks forwarded from inside `initEmbedder` are
driven by the external loader and are not part of the trace.  The texts fed
to `embedBatch` come from `generateBatchEmbeddingTexts` (text-generator
module, not among the sources); they are supplied per node as a precomputed
`text` field. -/

/-- A node record as the pipeline iterates it: its id plus the embedding
text the text generator produced for it. -/
structure PipelineNode where
  id : String
  text : String
  deriving DecidableEq, Repr

/-- One progress callback payload (`EmbeddingProgress`). -/
structure EmbeddingProgress where
  phase : String
  percent : Int
  modelDownloadPercent : Option Int := none
  nodesProcessed : Option Nat := none
  totalNodes : Option Nat := none
  currentBatch : Option Nat := none
  totalBatches : Option Nat := none
  deriving DecidableEq, Repr

/-- An observable action of `runEmbeddingPipeline`. -/
inductive PipelineEvent (α : Type) where
  | progress (p : EmbeddingProgress)
  | embedCall (texts : List String)
  | updateNode (id : String) (embedding : List α)
  | createIndex
  deriving DecidableEq, Repr

/-- The `Math.round(20 + (processedNodes / totalNodes) * 70)` computation,
modelled over ℚ (`Math.round` rounds half up, as does `round`). -/
def embedPercent (processed total : Nat) : Int :=
  round ((20 : ℚ) + ((processed : ℚ) / (total : ℚ)) * 70)

/-- Events of one iteration of the batch loop: embed the batch's texts,
issue one update query per node of the batch (`batchUpdateEmbeddings`
iterating `updateNodeEmbedding`), then report progress. -/
def batchEvents (e : EmbedderModel α) (nodes : List PipelineNode)
    (batchSize : Nat) (batchIndex : Nat) : List (PipelineEvent α) :=
  let totalNodes := nodes.length
  let totalBatches := (totalNodes + batchSize - 1) / batchSize
  let batch := (nodes.drop (batchIndex * batchSize)).take batchSize
  let texts := batch.map (·.text)
  let embeddings := (embedBatch (some e) texts).toOption.getD []
  let updates := List.zipWith (fun (n : PipelineNode) emb => (n.id, emb)) batch embeddings
  let processed := batchIndex * batchSize + batch.length
  let batchProgress : EmbeddingProgress :=
    { phase := "embedding", percent := embedPercent processed totalNodes,
      nodesProcessed := some processed, totalNodes := some totalNodes,
      currentBatch := some (batchIndex + 1), totalBatches := some totalBatches }
  .embedCall texts
    :: updates.map (fun u => .updateNode u.1 u.2)
    ++ [.progress batchProgress]

/-- Trace of `runEmbeddingPipeline` after the embedder loaded successfully:
initial and post-load progress, then — if no embeddable node was found —
the final `ready` report and nothing else; otherwise the batch loop, the
`indexing` report, vector-index creation and the final `ready` report. -/
def runEmbeddingPipeline (e : EmbedderModel α) (nodes : List PipelineNode)
    (batchSize : Nat) : List (PipelineEvent α) :=
  let totalNodes := nodes.length
  let totalBatches := (totalNodes + batchSize - 1) / batchSize
  let emptyReady : EmbeddingProgress :=
    { phase := "ready", percent := 100, nodesProcessed := some 0, totalNodes := some 0 }
  let embedStart : EmbeddingProgress :=
    { phase := "embedding", percent := 20, nodesProcessed := some 0,
      totalNodes := some totalNodes, currentBatch := some 0,
      totalBatches := some totalBatches }
  let indexing : EmbeddingProgress :=
    { phase := "indexing", percent := 90, nodesProcessed := some totalNodes,
      totalNodes := some totalNodes }
  let ready : EmbeddingProgress :=
    { phase := "ready", percent := 100, nodesProcessed := some totalNodes,
      totalNodes := some totalNodes }
  .progress { phase := "loading-model", percent := 0, modelDownloadPercent := some 0 }
    :: .progress { phase := "loading-model", percent := 20, modelDownloadPercent := some 100 }
    :: (if totalNodes = 0 then
          [.progress emptyReady]
        else
          .progress embedStart
            :: ((List.range totalBatches).flatMap fun i => batchEvents e nodes batchSize i)
            ++ [.progress indexing, .createIndex, .progress ready])

/-- Counts the `embedBatch` invocations in a trace. -/
def countEmbedCalls : List (PipelineEvent α) → Nat
  | [] => 0
  | .embedCall _ :: rest => countEmbedCalls rest + 1
  | _ :: rest => countEmbedCalls rest

/-- Counts the node-update queries in a trace. -/
def countNodeUpdates : List (PipelineEvent α) → Nat
  | [] => 0
  | .updateNode _ _ :: rest => countNodeUpdates rest + 1
  | _ :: rest => countNodeUpdates rest

/-- Counts the vector-index creations in a trace. -/
def countIndexCreations : List (PipelineEvent α) → Nat
  | [] => 0
  | .createIndex :: rest => countIndexCreations rest + 1
  | _ :: rest => countIndexCreations rest

/-! ## Semantic search -/

/-- The parameters of the `QUERY_VECTOR_INDEX` Cypher query `semanticSearch`
builds: the embedded query vector, `k`, and the `maxDistance` threshold. -/
structure VectorSearchQuery (α : Type) where
  queryVec : List α
  k : Nat
  maxDistance : ℚ

/-- The parameters of the graph-expansion query built by
`semanticSearchWithContext`: query vector, `k` and the hop count. -/
structure ContextSearchQuery (α : Type) where
  queryVec : List α
  k : Nat
  hops : Nat

/-- `semanticSearch`: throws before anything else when the embedder is not
ready; otherwise embeds the query (`embedText`), runs exactly one query
against the vector index and maps each row.  The second component counts
`executeQuery` invocations. -/
def semanticSearch (s : EmbedderState) (e : EmbedderModel α)
    (executeQuery : VectorSearchQuery α → List QueryRow)
    (query : String) (k : Nat) (maxDistance : ℚ) :
    Except String (List SemanticSearchResult) × Nat :=
  if !isEmbedderReady s then
    (.error "Embedding model not initialized. Run embedding pipeline first.", 0)
  else
    let rows := executeQuery { queryVec := e.single query, k := k, maxDistance := maxDistance }
    (.ok (rows.map mapSemanticSearchRow), 1)

/-- `semanticSearchWithContext`: same guard, then exactly one
graph-expansion query whose rows are returned unmapped. -/
def semanticSearchWithContext (s : EmbedderState) (e : EmbedderModel α)
    (executeQuery : ContextSearchQuery α → List QueryRow)
    (query : String) (k : Nat) (hops : Nat) :
    Except String (List QueryRow) × Nat :=
  if !isEmbedderReady s then
    (.error "Embedding model not initialized. Run embedding pipeline first.", 0)
  else
    (.ok (executeQuery { queryVec := e.single query, k := k, hops := hops }), 1)

/-! ## AST cache -/

/-- Modelled from the spec: the bounded AST cache of §4.3 (its source is
not among the available files).  Entries are kept most-recently-used first;
`released` logs, in order, each tree handle whose resource-release
operation (`tree.delete()`) the cache has invoked.  `T` is the opaque
externally-owned tree-handle type. -/
structure AstCache (T : Type) where
  capacity : Nat
  entries : List (String × T)
  released : List T

/-- The empty cache of a given capacity (default 50 per the spec). -/
def AstCache.empty (T : Type) (capacity : Nat := 50) : AstCache T :=
  { capacity := capacity, entries := [], released := [] }

/-- Removes the first entry with the given key, if any. -/
def removeKey : List (String × T) → String → List (String × T)
  | [], _ => []
  | e :: es, p => if e.1 = p then es else e :: removeKey es p

/-- Modelled from the spec: `get(path)` — a hit promotes the entry to
most-recently-used and returns the tree; a miss changes nothing. -/
def AstCache.get (c : AstCache T) (path : String) : Option T × AstCache T :=
  match c.entries.lookup path with
  | some t => (some t, { c with entries := (path, t) :: removeKey c.entries path })
  | none => (none, c)

/-- Modelled from the spec: `set(path, tree)` — an existing key is updated
and promoted; a fresh key on a full cache first evicts the
least-recently-accessed entry (the last of the recency list), invoking its
release exactly once, then admits the new entry at the front. -/
def AstCache.set (c : AstCache T) (path : String) (tree : T) : AstCache T :=
  match c.entries.lookup path with
  | some _ => { c with entries := (path, tree) :: removeKey c.entries path }
  | none =>
    if c.capacity ≤ c.entries.length then
      match c.entries.getLast? with
      | some lru =>
        { c with entries := (path, tree) :: c.entries.dropLast,
                 released := c.released ++ [lru.2] }
      | none => { c with entries := [(path, tree)] }
    else
      { c with entries := (path, tree) :: c.entries }

/-- Modelled from the spec: `releaseAll()` — every entry's handle is
released and the cache emptied. -/
def AstCache.releaseAll (c : AstCache T) : AstCache T :=
  { c with entries := [], released := c.released ++ c.entries.map (·.2) }

/-- A `get` or `set` request against the cache. -/
inductive CacheOp (T : Type) where
  | get (path : String)
  | set (path : String) (tree : T)

/-- Applies one request. -/
def AstCache.applyOp (c : AstCache T) : CacheOp T → AstCache T
  | .get p => (c.get p).2
  | .set p t => c.set p t

/-- Runs a request sequence from a given cache state. -/
def AstCache.runOps (c : AstCache T) (ops : List (CacheOp T)) : AstCache T :=
  ops.foldl AstCache.applyOp c

theorem length_removeKey_le (l : List (String × T)) (p : String) :
    (removeKey l p).length ≤ l.length := by
  induction l with
  | nil => simp [removeKey]
  | cons e es ih =>
    by_cases h : e.1 = p
    · simp only [removeKey, if_pos h, List.length_cons]
      omega
    · simp only [removeKey, if_neg h, List.length_cons]
      omega

theorem length_removeKey_lt (l : List (String × T)) (p : String) (t : T)
    (h : l.lookup p = some t) : (removeKey l p).length < l.length := by
  induction l with
  | nil => simp [List.lookup] at h
  | cons e es ih =>
    by_cases hp : e.1 = p
    · simp [removeKey, hp]
    · have hbeq : (p == e.1) = false := by
        simp [beq_iff_eq]; exact fun hc => hp hc.symm
      simp only [List.lookup, hbeq] at h
      have := ih h
      simp [removeKey, hp]
      omega

theorem AstCache.get_length (c : AstCache T) (p : String) :
    ((c.get p).2).entries.length ≤ c.entries.length := by
  unfold AstCache.get
  cases h : c.entries.lookup p with
  | none => simp
  | some t =>
    simp only [List.length_cons]
    exact length_removeKey_lt c.entries p t h

theorem AstCache.set_length (c : AstCache T) (p : String) (t : T)
    (hcap : 0 < c.capacity) (hlen : c.entries.length ≤ c.capacity) :
    (c.set p t).entries.length ≤ c.capacity := by
  unfold AstCache.set
  cases hl : c.entries.lookup p with
  | some t₀ =>
    simp only [List.length_cons]
    have := length_removeKey_lt c.entries p t₀ hl
    omega
  | none =>
    by_cases hfull : c.capacity ≤ c.entries.length
    · cases hlast : c.entries.getLast? with
      | some lru =>
        have hne : c.entries ≠ [] := by
          intro hnil; rw [hnil] at hlast; simp at hlast
        simp only [hfull, if_pos, List.length_cons, List.length_dropLast]
        have : 1 ≤ c.entries.length := List.length_pos.mpr hne
        omega
      | none =>
        have : c.entries = [] := List.getLast?_eq_none_iff.mp hlast
        simp only [hfull, if_pos, this]
        simpa using hcap
    · simp only [if_neg hfull, List.length_cons]
      omega

theorem AstCache.applyOp_length (c : AstCache T) (op : CacheOp T)
    (hcap : 0 < c.capacity) (hlen : c.entries.length ≤ c.capacity) :
    (c.applyOp op).entries.length ≤ c.capacity := by
  cases op with
  | get p => exact le_trans (c.get_length p) hlen
  | set p t => exact c.set_length p t hcap hlen

theorem AstCache.applyOp_capacity (c : AstCache T) (op : CacheOp T) :
    (c.applyOp op).capacity = c.capacity := by
  cases op with
  | get p =>
    show ((c.get p).2).capacity = c.capacity
    unfold AstCache.get
    cases c.entries.lookup p <;> rfl
  | set p t =>
    show (c.set p t).capacity = c.capacity
    unfold AstCache.set
    cases c.entries.lookup p
    · dsimp only
      split
      · cases c.entries.getLast? <;> rfl
      · rfl
    · rfl

theorem AstCache.runOps_length (c : AstCache T) (ops : List (CacheOp T))
    (hcap : 0 < c.capacity) (hlen : c.entries.length ≤ c.capacity) :
    (c.runOps ops).entries.length ≤ (c.runOps ops).capacity := by
  induction ops generalizing c with
  | nil => simpa [AstCache.runOps]
  | cons op rest ih =>
    have hstep := c.applyOp_length op hcap hlen
    have hc := c.applyOp_capacity op
    have := ih (c.applyOp op) (hc ▸ hcap) (hc ▸ hstep)
    simpa [AstCache.runOps] using this

/-! ## SymbolTable and CallResolver -/

/-- Modelled from the spec: a symbol definition `{name, nodeId, filePath,
kind}` (§3); the SymbolTable source is not among the available files. -/
structure SymbolDefinition where
  name : String
  nodeId : String
  filePath : String
  kind : String
  deriving DecidableEq, Repr

/-- Modelled from the spec: the dual-index SymbolTable (§4.4) — a
file-scoped index `filePath → (symbolName → nodeId)` and a global
append-only index `symbolName → ordered list of SymbolDefinition`, both as
association lists. -/
structure SymbolTable where
  fileScoped : List (String × List (String × String))
  globalIndex : List (String × List SymbolDefinition)
  deriving DecidableEq, Repr

/-- The empty symbol table. -/
def SymbolTable.empty : SymbolTable := ⟨[], []⟩

/-- Last-write-wins insertion into a per-file scope. -/
def setLocalName : List (String × String) → String → String → List (String × String)
  | [], name, nodeId => [(name, nodeId)]
  | e :: es, name, nodeId =>
    if e.1 = name then (name, nodeId) :: es else e :: setLocalName es name nodeId

/-- Updates the scope of one file inside the file-scoped index. -/
def setFileScope : List (String × List (String × String)) → String → String → String →
    List (String × List (String × String))
  | [], filePath, name, nodeId => [(filePath, [(name, nodeId)])]
  | e :: es, filePath, name, nodeId =>
    if e.1 = filePath then (filePath, setLocalName e.2 name nodeId) :: es
    else e :: setFileScope es filePath name nodeId

/-- Appends a definition to the global list of one name (append-only,
insertion order preserved). -/
def appendGlobal : List (String × List SymbolDefinition) → SymbolDefinition →
    List (String × List SymbolDefinition)
  | [], d => [(d.name, [d])]
  | e :: es, d =>
    if e.1 = d.name then (e.1, e.2 ++ [d]) :: es else e :: appendGlobal es d

/-- Modelled from the spec: `register(filePath, name, nodeId, kind)` —
inserts into both indexes. -/
def SymbolTable.register (st : SymbolTable) (filePath name nodeId kind : String) :
    SymbolTable where
  fileScoped := setFileScope st.fileScoped filePath name nodeId
  globalIndex := appendGlobal st.globalIndex
    { name := name, nodeId := nodeId, filePath := filePath, kind := kind }

/-- Modelled from the spec: `lookupLocal(filePath, name)` — exact match or
miss. -/
def SymbolTable.lookupLocal (st : SymbolTable) (filePath name : String) :
    Option String :=
  (st.fileScoped.lookup filePath).bind fun scope => scope.lookup name

/-- Modelled from the spec: `lookupGlobal(name)` — the ordered (possibly
empty) definition list. -/
def SymbolTable.lookupGlobal (st : SymbolTable) (name : String) :
    List SymbolDefinition :=
  (st.globalIndex.lookup name).getD []

/-- Per-file import maps: `file → (alias → resolved target file path)`. -/
abbrev ImportMaps : Type := List (String × List (String × String))

/-- The alias binding of one file's import map. -/
def lookupImportAlias (ims : ImportMaps) (file aliasName : String) : Option String :=
  (List.lookup file ims).bind fun m => m.lookup aliasName

/-- How a call was resolved (the confidence tier that produced it). -/
inductive CallResolution where
  | importMap (nodeId : String)
  | localScope (nodeId : String)
  | globalFallback (nodeId : String)
  deriving DecidableEq, Repr

/-- The resolved node id regardless of tier. -/
def CallResolution.nodeId : CallResolution → String
  | .importMap id => id
  | .localScope id => id
  | .globalFallback id => id

/-- Modelled from the spec: CallResolver (§4.6) — for a call
`(calleeName, enclosingFile)` try, in this fixed order and stopping at the
first tier that yields a definition: (1) the enclosing file's import map
followed by a local lookup in the *target* file, (2) the enclosing file's
own local scope, (3) the first entry of the global index.  No match yields
no edge. -/
def resolveCall (st : SymbolTable) (ims : ImportMaps)
    (enclosingFile calleeName : String) : Option CallResolution :=
  match (lookupImportAlias ims enclosingFile calleeName).bind
      (fun targetFile => st.lookupLocal targetFile calleeName) with
  | some nodeId => some (.importMap nodeId)
  | none =>
    match st.lookupLocal enclosingFile calleeName with
    | some nodeId => some (.localScope nodeId)
    | none =>
      match (st.lookupGlobal calleeName).head? with
      | some d => some (.globalFallback d.nodeId)
      | none => none

theorem resolveCall_tier1 (st : SymbolTable) (ims : ImportMaps)
    (file name nodeId : String)
    (h : (lookupImportAlias ims file name).bind
      (fun t => st.lookupLocal t name) = some nodeId) :
    resolveCall st ims file name = some (.importMap nodeId) := by
  unfold resolveCall
  rw [h]

theorem resolveCall_tier2 (st : SymbolTable) (ims : ImportMaps)
    (file name nodeId : String)
    (h1 : (lookupImportAlias ims file name).bind
      (fun t => st.lookupLocal t name) = none)
    (h2 : st.lookupLocal file name = some nodeId) :
    resolveCall st ims file name = some (.localScope nodeId) := by
  unfold resolveCall
  rw [h1, h2]

theorem resolveCall_tier3 (st : SymbolTable) (ims : ImportMaps)
    (file name : String)
    (h1 : (lookupImportAlias ims file name).bind
      (fun t => st.lookupLocal t name) = none)
    (h2 : st.lookupLocal file name = none) :
    resolveCall st ims file name
      = ((st.lookupGlobal name).head?).map (fun d => .globalFallback d.nodeId) := by
  unfold resolveCall
  rw [h1, h2]
  cases (st.lookupGlobal name).head? <;> rfl

/-! ## Ingestion pipeline: data model and creation-event traces

The ingestion core is modelled from the spec (its source is not among the
available files).  A run is embedded as the trace of node- and
edge-creation events it performs, in order; the §3 invariant — every edge's
endpoints are nodes already present at edge-creation time — is the
predicate `ClosedFrom` over that trace. -/

/-- The node label enumeration of §3. -/
inductive NodeLabel where
  | Folder | File | Function | Class | Interface | Method
  deriving DecidableEq, Repr

/-- The edge type enumeration of §3. -/
inductive RelationType where
  | CONTAINS | DEFINES | IMPORTS | CALLS
  deriving DecidableEq, Repr

/-- Modelled from the spec: a `CodeNode` (§3). -/
structure CodeNode where
  id : String
  label : NodeLabel
  name : String
  filePath : String
  startLine : Nat
  endLine : Nat
  content : String
  deriving DecidableEq, Repr

/-- Modelled from the spec: a `CodeRelation` edge (§3). -/
structure CodeRelation where
  fromId : String
  toId : String
  type : RelationType
  deriving DecidableEq, Repr

/-- A creation event of the run: nodes and edges are never mutated or
removed once created, so the run is fully described by this trace. -/
inductive GraphEvent where
  | addNode (n : CodeNode)
  | addEdge (e : CodeRelation)
  deriving DecidableEq, Repr

/-- The node-id set (as a list) after a trace runs on top of the ids `S`. -/
def nodesAcc (S : List String) : List GraphEvent → List String
  | [] => S
  | .addNode n :: rest => nodesAcc (n.id :: S) rest
  | .addEdge _ :: rest => nodesAcc S rest

/-- The §3 edge invariant over a trace: starting from node-id set `S`,
every `addEdge` refers only to node ids present at that moment. -/
def ClosedFrom (S : List String) : List GraphEvent → Prop
  | [] => True
  | .addNode n :: rest => ClosedFrom (n.id :: S) rest
  | .addEdge e :: rest => e.fromId ∈ S ∧ e.toId ∈ S ∧ ClosedFrom S rest

/-- The nodes a trace creates, in order. -/
def eventsNodes : List GraphEvent → List CodeNode
  | [] => []
  | .addNode n :: rest => n :: eventsNodes rest
  | .addEdge _ :: rest => eventsNodes rest

/-- The edges a trace creates, in order. -/
def eventsEdges : List GraphEvent → List CodeRelation
  | [] => []
  | .addNode _ :: rest => eventsEdges rest
  | .addEdge e :: rest => e :: eventsEdges rest

theorem nodesAcc_append (t₁ t₂ : List GraphEvent) (S : List String) :
    nodesAcc S (t₁ ++ t₂) = nodesAcc (nodesAcc S t₁) t₂ := by
  induction t₁ generalizing S with
  | nil => rfl
  | cons ev rest ih => cases ev <;> simp [nodesAcc, ih]

theorem closedFrom_append (t₁ t₂ : List GraphEvent) (S : List String) :
    ClosedFrom S (t₁ ++ t₂) ↔ ClosedFrom S t₁ ∧ ClosedFrom (nodesAcc S t₁) t₂ := by
  induction t₁ generalizing S with
  | nil => simp [ClosedFrom, nodesAcc]
  | cons ev rest ih =>
    cases ev with
    | addNode n => simp [ClosedFrom, nodesAcc, ih]
    | addEdge e => simp [ClosedFrom, nodesAcc, ih, and_assoc]

theorem mem_nodesAcc_of_mem (t : List GraphEvent) (S : List String) (x : String)
    (hx : x ∈ S) : x ∈ nodesAcc S t := by
  induction t generalizing S with
  | nil => exact hx
  | cons ev rest ih =>
    cases ev with
    | addNode n => exact ih _ (List.mem_cons_of_mem _ hx)
    | addEdge e => exact ih _ hx

theorem mem_nodesAcc_iff (t : List GraphEvent) (S : List String) (x : String) :
    x ∈ nodesAcc S t ↔ x ∈ S ∨ x ∈ (eventsNodes t).map CodeNode.id := by
  induction t generalizing S with
  | nil => simp [nodesAcc, eventsNodes]
  | cons ev rest ih =>
    cases ev with
    | addNode n =>
      simp only [nodesAcc, eventsNodes, List.map_cons, List.mem_cons, ih,
        List.mem_cons]
      tauto
    | addEdge e => simp [nodesAcc, eventsNodes, ih]

theorem closedFrom_mono (t : List GraphEvent) (S S' : List String)
    (hS : ∀ x ∈ S, x ∈ S') (h : ClosedFrom S t) : ClosedFrom S' t := by
  induction t generalizing S S' with
  | nil => trivial
  | cons ev rest ih =>
    cases ev with
    | addNode n =>
      exact ih (n.id :: S) (n.id :: S')
        (fun x hx => by
          rcases List.mem_cons.mp hx with h1 | h2
          · exact h1 ▸ List.mem_cons_self _ _
          · exact List.mem_cons_of_mem _ (hS x h2)) h
    | addEdge e =>
      obtain ⟨h1, h2, h3⟩ := h
      exact ⟨hS _ h1, hS _ h2, ih S S' hS h3⟩

theorem closedFrom_edges (t : List GraphEvent) (S : List String)
    (h : ClosedFrom S t) :
    ∀ e ∈ eventsEdges t, e.fromId ∈ nodesAcc S t ∧ e.toId ∈ nodesAcc S t := by
  induction t generalizing S with
  | nil => intro e he; simp [eventsEdges] at he
  | cons ev rest ih =>
    cases ev with
    | addNode n =>
      intro e he
      exact ih (n.id :: S) h e he
    | addEdge e₀ =>
      obtain ⟨h1, h2, h3⟩ := h
      intro e he
      rcases List.mem_cons.mp he with rfl | hmem
      · exact ⟨mem_nodesAcc_of_mem _ _ _ h1, mem_nodesAcc_of_mem _ _ _ h2⟩
      · exact ih S h3 e hmem

/-! ## StructureBuilder -/

/-- Splits a character list on `/`, accumulating the current segment. -/
def splitSegsAux (cur : List Char) : List Char → List String
  | [] => [String.mk cur.reverse]
  | c :: cs =>
    if c = '/' then String.mk cur.reverse :: splitSegsAux [] cs
    else splitSegsAux (c :: cur) cs

/-- Path segments of a path (split on `/`). -/
def pathSegments (path : String) : List String := splitSegsAux [] path.data

/-- Joins a parent chain id with the next segment. -/
def joinSeg (acc s : String) : String := if acc = "" then s else acc ++ "/" ++ s

/-- Deterministic node-id derivation for a file path: the joined segment
chain.  The same path always yields the same id. -/
def deriveFileId (path : String) : String := (pathSegments path).foldl joinSeg ""

/-- The chain of path-prefix ids a path induces, root `""` first. -/
def pathChain (path : String) : List String := (pathSegments path).scanl joinSeg ""

/-- The display name of a chain node: its last segment. -/
def lastSeg (id : String) : String := (pathSegments id).getLastD ""

/-- The Folder node of a path-prefix id. -/
def folderNode (id : String) : CodeNode :=
  { id := id, label := .Folder, name := lastSeg id, filePath := id,
    startLine := 0, endLine := 0, content := "" }

/-- The File node of a path.  StructureBuilder's input is the path
sequence only, so the node carries no content. -/
def fileNode (id : String) : CodeNode :=
  { id := id, label := .File, name := lastSeg id, filePath := id,
    startLine := 0, endLine := 0, content := "" }

/-- The node a chain position creates: File for the final segment, Folder
for every other prefix. -/
def chainNode (c : String) (cs : List String) : CodeNode :=
  if cs.isEmpty then fileNode c else folderNode c

theorem chainNode_id (c : String) (cs : List String) : (chainNode c cs).id = c := by
  unfold chainNode; split <;> rfl

/-- Modelled from the spec: StructureBuilder's walk of one path's segment
chain (§4.2) — each unseen prefix gets one node (memoised by prefix
string) and one CONTAINS edge from its parent prefix. -/
def walkChain (seen : List String) (parent : String) :
    List String → List String × List GraphEvent
  | [] => (seen, [])
  | c :: cs =>
    if c ∈ seen then walkChain seen c cs
    else
      ((walkChain (c :: seen) c cs).1,
        .addNode (chainNode c cs)
          :: .addEdge { fromId := parent, toId := c, type := .CONTAINS }
          :: (walkChain (c :: seen) c cs).2)

/-- Processes one path: creates the root Folder if unseen, then walks the
chain below it. -/
def structOne (seen : List String) (path : String) :
    List String × List GraphEvent :=
  if "" ∈ seen then walkChain seen "" (pathChain path).tail
  else
    ((walkChain ("" :: seen) "" (pathChain path).tail).1,
      .addNode (folderNode "") :: (walkChain ("" :: seen) "" (pathChain path).tail).2)

/-- Modelled from the spec: StructureBuilder over the full ordered path
sequence. -/
def structPhase (paths : List String) : List String × List GraphEvent :=
  paths.foldl (fun acc p => ((structOne acc.1 p).1, acc.2 ++ (structOne acc.1 p).2))
    ([], [])

theorem walkChain_spec (rest : List String) (seen S : List String) (parent : String)
    (hseen : ∀ x ∈ seen, x ∈ S) (hparent : parent ∈ S) :
    ClosedFrom S (walkChain seen parent rest).2 ∧
    (∀ x ∈ (walkChain seen parent rest).1, x ∈ nodesAcc S (walkChain seen parent rest).2) ∧
    (∀ x ∈ seen, x ∈ (walkChain seen parent rest).1) ∧
    (∀ x, rest.getLast? = some x → x ∈ (walkChain seen parent rest).1) := by
  induction rest generalizing seen S parent with
  | nil =>
    refine ⟨trivial, fun x hx => hseen x hx, fun x hx => hx, fun x hx => by simp at hx⟩
  | cons c cs ih =>
    by_cases hc : c ∈ seen
    · have ihc := ih seen S c hseen (hseen c hc)
      have heq : walkChain seen parent (c :: cs) = walkChain seen c cs := by
        simp [walkChain, hc]
      rw [heq]
      refine ⟨ihc.1, ihc.2.1, ihc.2.2.1, ?_⟩
      intro x hx
      cases cs with
      | nil =>
        simp at hx
        exact hx ▸ ihc.2.2.1 c hc
      | cons d ds =>
        rw [List.getLast?_cons_cons] at hx
        exact ihc.2.2.2 x hx
    · have hseen' : ∀ x ∈ c :: seen, x ∈ c :: S := by
        intro x hx
        rcases List.mem_cons.mp hx with rfl | h2
        · exact List.mem_cons_self _ _
        · exact List.mem_cons_of_mem _ (hseen x h2)
      have ihc := ih (c :: seen) (c :: S) c hseen' (List.mem_cons_self _ _)
      have heq : walkChain seen parent (c :: cs)
          = ((walkChain (c :: seen) c cs).1,
              .addNode (chainNode c cs)
                :: .addEdge { fromId := parent, toId := c, type := .CONTAINS }
                :: (walkChain (c :: seen) c cs).2) := by
        simp [walkChain, hc]
      rw [heq]
      refine ⟨?_, ?_, ?_, ?_⟩
      · show ClosedFrom S (.addNode (chainNode c cs) :: _)
        simp only [ClosedFrom, chainNode_id]
        exact ⟨List.mem_cons_of_mem _ hparent, List.mem_cons_self _ _, ihc.1⟩
      · intro x hx
        show x ∈ nodesAcc S (.addNode (chainNode c cs) :: _)
        simp only [nodesAcc, chainNode_id]
        exact ihc.2.1 x hx
      · intro x hx
        exact ihc.2.2.1 x (List.mem_cons_of_mem _ hx)
      · intro x hx
        cases cs with
        | nil =>
          simp at hx
          exact hx ▸ ihc.2.2.1 c (List.mem_cons_self _ _)
        | cons d ds =>
          rw [List.getLast?_cons_cons] at hx
          exact ihc.2.2.2 x hx

theorem scanl_getLast? (f : String → String → String) (l : List String) (b : String) :
    (List.scanl f b l).getLast? = some (l.foldl f b) := by
  induction l generalizing b with
  | nil => rfl
  | cons a l ih =>
    rw [List.scanl_cons, List.foldl_cons]
    cases hl : List.scanl f (f b a) l with
    | nil =>
      have := ih (f b a)
      rw [hl] at this
      simp at this
    | cons y ys =>
      rw [List.singleton_append, List.getLast?_cons_cons, ← hl, ih]

theorem structOne_spec (path : String) (seen S : List String)
    (hseen : ∀ x ∈ seen, x ∈ S) :
    ClosedFrom S (structOne seen path).2 ∧
    (∀ x ∈ (structOne seen path).1, x ∈ nodesAcc S (structOne seen path).2) ∧
    (∀ x ∈ seen, x ∈ (structOne seen path).1) ∧
    deriveFileId path ∈ (structOne seen path).1 := by
  have hchain : ∀ (s' S' : List String) (h : ∀ x ∈ s', x ∈ S') (hr : "" ∈ s'),
      deriveFileId path ∈ (walkChain s' "" (pathChain path).tail).1 := by
    intro s' S' h hr
    have hw := walkChain_spec (pathChain path).tail s' S' "" h (h _ hr)
    cases hsegs : pathSegments path with
    | nil =>
      have hid : deriveFileId path = "" := by simp [deriveFileId, hsegs]
      rw [hid]
      exact hw.2.2.1 _ hr
    | cons a l =>
      have htail : (pathChain path).tail = List.scanl joinSeg (joinSeg "" a) l := by
        simp [pathChain, hsegs]
      have hlast : ((pathChain path).tail).getLast? = some (deriveFileId path) := by
        rw [htail, scanl_getLast?]
        simp [deriveFileId, hsegs]
      exact hw.2.2.2 _ hlast
  by_cases hroot : "" ∈ seen
  · have hw := walkChain_spec (pathChain path).tail seen S "" hseen (hseen _ hroot)
    have heq : structOne seen path = walkChain seen "" (pathChain path).tail := by
      simp [structOne, hroot]
    rw [heq]
    exact ⟨hw.1, hw.2.1, hw.2.2.1, hchain seen S hseen hroot⟩
  · have hseen' : ∀ x ∈ "" :: seen, x ∈ "" :: S := by
      intro x hx
      rcases List.mem_cons.mp hx with rfl | h2
      · exact List.mem_cons_self _ _
      · exact List.mem_cons_of_mem _ (hseen x h2)
    have hw := walkChain_spec (pathChain path).tail ("" :: seen) ("" :: S) ""
      hseen' (List.mem_cons_self _ _)
    have heq : structOne seen path
        = ((walkChain ("" :: seen) "" (pathChain path).tail).1,
            .addNode (folderNode "")
              :: (walkChain ("" :: seen) "" (pathChain path).tail).2) := by
      simp [structOne, hroot]
    rw [heq]
    refine ⟨?_, ?_, ?_, ?_⟩
    · show ClosedFrom S (.addNode (folderNode "") :: _)
      exact hw.1
    · intro x hx
      show x ∈ nodesAcc S (.addNode (folderNode "") :: _)
      exact hw.2.1 x hx
    · intro x hx
      exact hw.2.2.1 x (List.mem_cons_of_mem _ hx)
    · exact hchain ("" :: seen) ("" :: S) hseen' (List.mem_cons_self _ _)

theorem structFold_spec (paths : List String) (seen : List String)
    (evs : List GraphEvent)
    (h1 : ClosedFrom [] evs) (h2 : ∀ x ∈ seen, x ∈ nodesAcc [] evs) :
    ClosedFrom []
      (paths.foldl
        (fun acc p => ((structOne acc.1 p).1, acc.2 ++ (structOne acc.1 p).2))
        (seen, evs)).2 ∧
    (∀ x ∈ (paths.foldl
        (fun acc p => ((structOne acc.1 p).1, acc.2 ++ (structOne acc.1 p).2))
        (seen, evs)).1,
      x ∈ nodesAcc []
        (paths.foldl
          (fun acc p => ((structOne acc.1 p).1, acc.2 ++ (structOne acc.1 p).2))
          (seen, evs)).2) ∧
    (∀ x ∈ seen, x ∈ (paths.foldl
        (fun acc p => ((structOne acc.1 p).1, acc.2 ++ (structOne acc.1 p).2))
        (seen, evs)).1) ∧
    (∀ p ∈ paths, deriveFileId p ∈ (paths.foldl
        (fun acc p => ((structOne acc.1 p).1, acc.2 ++ (structOne acc.1 p).2))
        (seen, evs)).1) := by
  induction paths generalizing seen evs with
  | nil =>
    exact ⟨h1, h2, fun x hx => hx, fun p hp => by simp at hp⟩
  | cons p ps ih =>
    have hone := structOne_spec p seen (nodesAcc [] evs) h2
    have h1' : ClosedFrom [] (evs ++ (structOne seen p).2) :=
      (closedFrom_append _ _ _).mpr ⟨h1, hone.1⟩
    have h2' : ∀ x ∈ (structOne seen p).1,
        x ∈ nodesAcc [] (evs ++ (structOne seen p).2) := by
      intro x hx
      rw [nodesAcc_append]
      exact hone.2.1 x hx
    have := ih (structOne seen p).1 (evs ++ (structOne seen p).2) h1' h2'
    refine ⟨this.1, this.2.1, ?_, ?_⟩
    · intro x hx
      exact this.2.2.1 x (hone.2.2.1 x hx)
    · intro q hq
      rcases List.mem_cons.mp hq with rfl | hmem
      · exact this.2.2.1 _ hone.2.2.2
      · exact this.2.2.2 q hmem

theorem structPhase_spec (paths : List String) :
    ClosedFrom [] (structPhase paths).2 ∧
    (∀ x ∈ (structPhase paths).1, x ∈ nodesAcc [] (structPhase paths).2) ∧
    (∀ p ∈ paths, deriveFileId p ∈ (structPhase paths).1) := by
  have := structFold_spec paths [] [] trivial (by simp)
  exact ⟨this.1, this.2.1, this.2.2.2⟩

/-! ## Parse phase -/

/-- A declaration extracted from a file's AST (the parse capability is
external, §6; its per-file result is part of the input snapshot). -/
structure Decl where
  name : String
  kind : NodeLabel
  startLine : Nat
  endLine : Nat
  content : String
  deriving DecidableEq, Repr

/-- A raw import specifier with its local alias name. -/
structure ImportSpec where
  aliasName : String
  specifier : String
  deriving DecidableEq, Repr

/-- One file of the immutable input snapshot: its path and the
language-specific extraction results (declarations, import specifiers,
call-expression callee names). -/
structure FileInput where
  path : String
  decls : List Decl
  importSpecs : List ImportSpec
  calls : List String
  deriving DecidableEq, Repr

/-- The immutable input snapshot of a run. -/
structure PipelineInput where
  files : List FileInput
  deriving DecidableEq, Repr

/-- Deterministic node-id derivation for a declaration: file id plus
declaration name.  The same declaration always yields the same id. -/
def declId (path : String) (d : Decl) : String :=
  deriveFileId path ++ "::" ++ d.name

/-- The kind string stored with a symbol definition. -/
def kindName : NodeLabel → String
  | .Folder => "Folder"
  | .File => "File"
  | .Function => "Function"
  | .Class => "Class"
  | .Interface => "Interface"
  | .Method => "Method"

/-- The CodeNode a declaration creates. -/
def declNode (path : String) (d : Decl) : CodeNode :=
  { id := declId path d, label := d.kind, name := d.name, filePath := path,
    startLine := d.startLine, endLine := d.endLine, content := d.content }

/-- Modelled from the spec: the Parse phase over one file's declarations
(§4.4) — each symbol-table insertion immediately follows the creation of
the corresponding CodeNode and its DEFINES edge. -/
def parseDecls (path : String) (st : SymbolTable) :
    List Decl → SymbolTable × List GraphEvent
  | [] => (st, [])
  | d :: ds =>
    ((parseDecls path (st.register path d.name (declId path d) (kindName d.kind)) ds).1,
      .addNode (declNode path d)
        :: .addEdge { fromId := deriveFileId path, toId := declId path d, type := .DEFINES }
        :: (parseDecls path (st.register path d.name (declId path d) (kindName d.kind)) ds).2)

/-- Modelled from the spec: the Parse phase over the file sequence. -/
def parseFiles (st : SymbolTable) : List FileInput → SymbolTable × List GraphEvent
  | [] => (st, [])
  | f :: fs =>
    ((parseFiles (parseDecls f.path st f.decls).1 fs).1,
      (parseDecls f.path st f.decls).2
        ++ (parseFiles (parseDecls f.path st f.decls).1 fs).2)

/-- All node ids a symbol table references lie in `S`. -/
def SymbolTable.idsIn (st : SymbolTable) (S : List String) : Prop :=
  (∀ fp scope, (fp, scope) ∈ st.fileScoped → ∀ n id, (n, id) ∈ scope → id ∈ S) ∧
  (∀ n defs, (n, defs) ∈ st.globalIndex → ∀ d ∈ defs, d.nodeId ∈ S)

theorem empty_idsIn (S : List String) : SymbolTable.empty.idsIn S := by
  constructor
  · intro fp scope h; simp [SymbolTable.empty] at h
  · intro n defs h; simp [SymbolTable.empty] at h

theorem idsIn_mono (st : SymbolTable) (S S' : List String)
    (h : st.idsIn S) (hS : ∀ x ∈ S, x ∈ S') : st.idsIn S' := by
  refine ⟨fun fp scope hm n id hn => hS _ (h.1 fp scope hm n id hn),
    fun n defs hm d hd => hS _ (h.2 n defs hm d hd)⟩

theorem setLocalName_ids (scope : List (String × String)) (name nodeId : String)
    (S : List String)
    (h : ∀ n id, (n, id) ∈ scope → id ∈ S) (hid : nodeId ∈ S) :
    ∀ n id, (n, id) ∈ setLocalName scope name nodeId → id ∈ S := by
  induction scope with
  | nil =>
    intro n id hm
    simp [setLocalName] at hm
    exact hm.2 ▸ hid
  | cons e es ih =>
    intro n id hm
    by_cases he : e.1 = name
    · simp only [setLocalName, if_pos he] at hm
      rcases List.mem_cons.mp hm with heq | hmem
      · injection heq with h1 h2
        exact h2 ▸ hid
      · exact h n id (List.mem_cons_of_mem _ hmem)
    · simp only [setLocalName, if_neg he] at hm
      rcases List.mem_cons.mp hm with heq | hmem
      · exact h n id (heq ▸ List.mem_cons_self _ _)
      · exact ih (fun n id hm => h n id (List.mem_cons_of_mem _ hm)) n id hmem

theorem setFileScope_ids (idx : List (String × List (String × String)))
    (filePath name nodeId : String) (S : List String)
    (h : ∀ fp scope, (fp, scope) ∈ idx → ∀ n id, (n, id) ∈ scope → id ∈ S)
    (hid : nodeId ∈ S) :
    ∀ fp scope, (fp, scope) ∈ setFileScope idx filePath name nodeId →
      ∀ n id, (n, id) ∈ scope → id ∈ S := by
  induction idx with
  | nil =>
    intro fp scope hm n id hn
    simp [setFileScope] at hm
    rw [hm.2] at hn
    simp at hn
    exact hn.2 ▸ hid
  | cons e es ih =>
    intro fp scope hm n id hn
    by_cases he : e.1 = filePath
    · simp only [setFileScope, if_pos he] at hm
      rcases List.mem_cons.mp hm with heq | hmem
      · have hscope : scope = setLocalName e.2 name nodeId := by
          injection heq with h1 h2
        exact setLocalName_ids e.2 name nodeId S
          (fun n id hm => h e.1 e.2 (List.mem_cons_self _ _) n id hm) hid n id (hscope ▸ hn)
      · exact h fp scope (List.mem_cons_of_mem _ hmem) n id hn
    · simp only [setFileScope, if_neg he] at hm
      rcases List.mem_cons.mp hm with heq | hmem
      · exact h fp scope (heq ▸ List.mem_cons_self _ _) n id hn
      · exact ih (fun fp scope hm => h fp scope (List.mem_cons_of_mem _ hm)) fp scope hmem n id hn

theorem appendGlobal_ids (idx : List (String × List SymbolDefinition))
    (d₀ : SymbolDefinition) (S : List String)
    (h : ∀ n defs, (n, defs) ∈ idx → ∀ d ∈ defs, d.nodeId ∈ S)
    (hid : d₀.nodeId ∈ S) :
    ∀ n defs, (n, defs) ∈ appendGlobal idx d₀ → ∀ d ∈ defs, d.nodeId ∈ S := by
  induction idx with
  | nil =>
    intro n defs hm d hd
    simp [appendGlobal] at hm
    rw [hm.2] at hd
    simp at hd
    exact hd ▸ hid
  | cons e es ih =>
    intro n defs hm d hd
    by_cases he : e.1 = d₀.name
    · simp only [appendGlobal, if_pos he] at hm
      rcases List.mem_cons.mp hm with heq | hmem
      · have hdefs : defs = e.2 ++ [d₀] := by
          injection heq with h1 h2
        rw [hdefs] at hd
        rcases List.mem_append.mp hd with h1 | h2
        · exact h e.1 e.2 (List.mem_cons_self _ _) d h1
        · simp at h2
          exact h2 ▸ hid
      · exact h n defs (List.mem_cons_of_mem _ hmem) d hd
    · simp only [appendGlobal, if_neg he] at hm
      rcases List.mem_cons.mp hm with heq | hmem
      · exact h n defs (heq ▸ List.mem_cons_self _ _) d hd
      · exact ih (fun n defs hm => h n defs (List.mem_cons_of_mem _ hm)) n defs hmem d hd

theorem register_idsIn (st : SymbolTable) (fp n nodeId k : String) (S : List String)
    (h : st.idsIn S) (hid : nodeId ∈ S) :
    (st.register fp n nodeId k).idsIn S :=
  ⟨setFileScope_ids st.fileScoped fp n nodeId S h.1 hid,
    appendGlobal_ids st.globalIndex _ S h.2 hid⟩

theorem mem_of_lookup (l : List (String × β)) (k : String) (v : β)
    (h : l.lookup k = some v) : (k, v) ∈ l := by
  obtain ⟨l₁, l₂, rfl, -⟩ := List.lookup_eq_some_iff.mp h
  exact List.mem_append.mpr (Or.inr (List.mem_cons_self _ _))

theorem lookupLocal_mem (st : SymbolTable) (fp n id : String) (S : List String)
    (hst : st.idsIn S) (h : st.lookupLocal fp n = some id) : id ∈ S := by
  unfold SymbolTable.lookupLocal at h
  obtain ⟨scope, h1, h2⟩ := Option.bind_eq_some.mp h
  exact hst.1 fp scope (mem_of_lookup _ _ _ h1) n id (mem_of_lookup _ _ _ h2)

theorem lookupGlobal_head_mem (st : SymbolTable) (n : String)
    (d : SymbolDefinition) (S : List String)
    (hst : st.idsIn S) (h : (st.lookupGlobal n).head? = some d) : d.nodeId ∈ S := by
  unfold SymbolTable.lookupGlobal at h
  cases hl : st.globalIndex.lookup n with
  | none => rw [hl] at h; simp at h
  | some defs =>
    rw [hl] at h
    simp only [Option.getD_some] at h
    exact hst.2 n defs (mem_of_lookup _ _ _ hl) d
      (List.mem_of_mem_head? (Option.mem_def.mpr h))

theorem parseDecls_spec (ds : List Decl) (path : String) (st : SymbolTable)
    (S : List String) (hst : st.idsIn S) (hfile : deriveFileId path ∈ S) :
    ClosedFrom S (parseDecls path st ds).2 ∧
    ((parseDecls path st ds).1).idsIn (nodesAcc S (parseDecls path st ds).2) := by
  induction ds generalizing st S with
  | nil => exact ⟨trivial, hst⟩
  | cons d ds ih =>
    have hsub : ∀ x ∈ S, x ∈ declId path d :: S := fun x hx => List.mem_cons_of_mem _ hx
    have hst' : (st.register path d.name (declId path d) (kindName d.kind)).idsIn
        (declId path d :: S) :=
      register_idsIn _ _ _ _ _ _ (idsIn_mono _ _ _ hst hsub) (List.mem_cons_self _ _)
    have ihd := ih (st.register path d.name (declId path d) (kindName d.kind))
      (declId path d :: S) hst' (hsub _ hfile)
    constructor
    · show ClosedFrom S (.addNode (declNode path d) :: .addEdge _ :: _)
      refine ⟨hsub _ hfile, List.mem_cons_self _ _, ihd.1⟩
    · show ((parseDecls path _ ds).1).idsIn
        (nodesAcc S (.addNode (declNode path d) :: .addEdge _ :: _))
      exact ihd.2

theorem parseFiles_spec (fs : List FileInput) (st : SymbolTable) (S : List String)
    (hst : st.idsIn S) (hfiles : ∀ f ∈ fs, deriveFileId f.path ∈ S) :
    ClosedFrom S (parseFiles st fs).2 ∧
    ((parseFiles st fs).1).idsIn (nodesAcc S (parseFiles st fs).2) := by
  induction fs generalizing st S with
  | nil => exact ⟨trivial, hst⟩
  | cons f fs ih =>
    have hd := parseDecls_spec f.decls f.path st S hst
      (hfiles f (List.mem_cons_self _ _))
    have hmono : ∀ x ∈ S, x ∈ nodesAcc S (parseDecls f.path st f.decls).2 :=
      fun x hx => mem_nodesAcc_of_mem _ _ _ hx
    have ihf := ih (parseDecls f.path st f.decls).1
      (nodesAcc S (parseDecls f.path st f.decls).2) hd.2
      (fun g hg => hmono _ (hfiles g (List.mem_cons_of_mem _ hg)))
    constructor
    · show ClosedFrom S ((parseDecls f.path st f.decls).2 ++ _)
      exact (closedFrom_append _ _ _).mpr ⟨hd.1, ihf.1⟩
    · show (_ : SymbolTable).idsIn (nodesAcc S ((parseDecls f.path st f.decls).2 ++ _))
      rw [nodesAcc_append]
      exact ihf.2

/-! ## Imports phase -/

/-- The supported file extensions (TypeScript, JavaScript, Python). -/
def SUPPORTED_EXTENSIONS : List String := [".ts", ".tsx", ".js", ".jsx", ".py"]

/-- Modelled from the spec: the fixed, ordered candidate list of §4.5 —
exact path, path plus each supported extension, path plus `/index` plus
each supported extension. -/
def importCandidates (spec : String) : List String :=
  spec :: SUPPORTED_EXTENSIONS.map (fun ext => spec ++ ext)
    ++ SUPPORTED_EXTENSIONS.map (fun ext => spec ++ "/index" ++ ext)

/-- Modelled from the spec: resolution against the known path set — the
first candidate present in the path set wins; no hit is a non-fatal miss. -/
def resolveImport (pathSet : List String) (spec : String) : Option String :=
  (importCandidates spec).find? (fun c => pathSet.contains c)

theorem resolveImport_mem (pathSet : List String) (spec target : String)
    (h : resolveImport pathSet spec = some target) : target ∈ pathSet := by
  have := List.find?_some h
  simpa using this

/-- Modelled from the spec: the Imports phase over one file's specifiers —
every resolved specifier yields one IMPORTS edge and one alias entry in
the file's import map; unresolved specifiers yield nothing. -/
def importsSpecs (pathSet : List String) (path : String) :
    List ImportSpec → List (String × String) × List GraphEvent
  | [] => ([], [])
  | s :: ss =>
    match resolveImport pathSet s.specifier with
    | some target =>
      ((s.aliasName, target) :: (importsSpecs pathSet path ss).1,
        .addEdge { fromId := deriveFileId path, toId := deriveFileId target,
                   type := .IMPORTS }
          :: (importsSpecs pathSet path ss).2)
    | none => importsSpecs pathSet path ss

/-- Modelled from the spec: the Imports phase over the file sequence,
building one import map per file. -/
def importsFiles (pathSet : List String) :
    List FileInput → ImportMaps × List GraphEvent
  | [] => ([], [])
  | f :: fs =>
    ((f.path, (importsSpecs pathSet f.path f.importSpecs).1)
        :: (importsFiles pathSet fs).1,
      (importsSpecs pathSet f.path f.importSpecs).2
        ++ (importsFiles pathSet fs).2)

/-- Every alias target of every import map lies in the path set. -/
abbrev ImportMaps.targetsIn (ims : ImportMaps) (pathSet : List String) : Prop :=
  ∀ fp m, (fp, m) ∈ ims → ∀ a t, (a, t) ∈ m → t ∈ pathSet

theorem importsSpecs_spec (ss : List ImportSpec) (pathSet : List String)
    (path : String) (S : List String)
    (hS : ∀ p ∈ pathSet, deriveFileId p ∈ S) (hpath : deriveFileId path ∈ S) :
    ClosedFrom S (importsSpecs pathSet path ss).2 ∧
    nodesAcc S (importsSpecs pathSet path ss).2 = S ∧
    (∀ a t, (a, t) ∈ (importsSpecs pathSet path ss).1 → t ∈ pathSet) := by
  induction ss with
  | nil => exact ⟨trivial, rfl, fun a t ht => by simp [importsSpecs] at ht⟩
  | cons s ss ih =>
    cases hres : resolveImport pathSet s.specifier with
    | none =>
      have heq : importsSpecs pathSet path (s :: ss) = importsSpecs pathSet path ss := by
        simp [importsSpecs, hres]
      rw [heq]
      exact ih
    | some target =>
      have heq : importsSpecs pathSet path (s :: ss)
          = ((s.aliasName, target) :: (importsSpecs pathSet path ss).1,
              .addEdge { fromId := deriveFileId path, toId := deriveFileId target,
                         type := .IMPORTS }
                :: (importsSpecs pathSet path ss).2) := by
        simp [importsSpecs, hres]
      rw [heq]
      refine ⟨⟨hpath, hS _ (resolveImport_mem _ _ _ hres), ih.1⟩, ih.2.1, ?_⟩
      intro a t ht
      rcases List.mem_cons.mp ht with heq2 | hmem
      · injection heq2 with h1 h2
        exact h2 ▸ resolveImport_mem _ _ _ hres
      · exact ih.2.2 a t hmem

theorem importsFiles_spec (fs : List FileInput) (pathSet : List String)
    (S : List String)
    (hS : ∀ p ∈ pathSet, deriveFileId p ∈ S)
    (hpaths : ∀ f ∈ fs, deriveFileId f.path ∈ S) :
    ClosedFrom S (importsFiles pathSet fs).2 ∧
    nodesAcc S (importsFiles pathSet fs).2 = S ∧
    ((importsFiles pathSet fs).1).targetsIn pathSet := by
  induction fs with
  | nil =>
    refine ⟨trivial, rfl, ?_⟩
    intro fp m hm
    simp [importsFiles] at hm
  | cons f fs ih =>
    have hone := importsSpecs_spec f.importSpecs pathSet f.path S hS
      (hpaths f (List.mem_cons_self _ _))
    have ihf := ih (fun g hg => hpaths g (List.mem_cons_of_mem _ hg))
    refine ⟨?_, ?_, ?_⟩
    · show ClosedFrom S ((importsSpecs pathSet f.path f.importSpecs).2 ++ _)
      refine (closedFrom_append _ _ _).mpr ⟨hone.1, ?_⟩
      rw [hone.2.1]
      exact ihf.1
    · show nodesAcc S ((importsSpecs pathSet f.path f.importSpecs).2 ++ _) = S
      rw [nodesAcc_append, hone.2.1, ihf.2.1]
    · intro fp m hm a t ht
      rcases List.mem_cons.mp hm with heq | hmem
      · have hm2 : m = (importsSpecs pathSet f.path f.importSpecs).1 := by
          injection heq with h1 h2
        exact hone.2.2 a t (hm2 ▸ ht)
      · exact ihf.2.2 fp m hmem a t ht

/-! ## Calls phase -/

theorem resolveCall_nodeId_mem (st : SymbolTable) (ims : ImportMaps)
    (file name : String) (r : CallResolution) (S : List String)
    (hst : st.idsIn S) (h : resolveCall st ims file name = some r) :
    r.nodeId ∈ S := by
  unfold resolveCall at h
  cases h1 : (lookupImportAlias ims file name).bind
      (fun targetFile => st.lookupLocal targetFile name) with
  | some nodeId =>
    rw [h1] at h
    obtain ⟨target, ht1, ht2⟩ := Option.bind_eq_some.mp h1
    injection h with h2
    rw [← h2]
    exact lookupLocal_mem st target name nodeId S hst ht2
  | none =>
    rw [h1] at h
    cases h2 : st.lookupLocal file name with
    | some nodeId =>
      rw [h2] at h
      injection h with h3
      rw [← h3]
      exact lookupLocal_mem st file name nodeId S hst h2
    | none =>
      rw [h2] at h
      cases h3 : (st.lookupGlobal name).head? with
      | some d =>
        rw [h3] at h
        injection h with h4
        rw [← h4]
        exact lookupGlobal_head_mem st name d S hst h3
      | none => rw [h3] at h; exact absurd h (by simp)

/-- Modelled from the spec: the Calls phase over one file's call
expressions (§4.6) — every resolved call yields one CALLS edge from the
caller's File node to the resolved definition node; an unresolved call is
silently dropped. -/
def callsFile (st : SymbolTable) (ims : ImportMaps) (path : String) :
    List String → List GraphEvent
  | [] => []
  | callee :: cs =>
    match resolveCall st ims path callee with
    | some r =>
      .addEdge { fromId := deriveFileId path, toId := r.nodeId, type := .CALLS }
        :: callsFile st ims path cs
    | none => callsFile st ims path cs

/-- Modelled from the spec: the Calls phase over the file sequence. -/
def callsFiles (st : SymbolTable) (ims : ImportMaps) :
    List FileInput → List GraphEvent
  | [] => []
  | f :: fs => callsFile st ims f.path f.calls ++ callsFiles st ims fs

theorem callsFile_spec (cs : List String) (st : SymbolTable) (ims : ImportMaps)
    (path : String) (S : List String)
    (hst : st.idsIn S) (hpath : deriveFileId path ∈ S) :
    ClosedFrom S (callsFile st ims path cs) ∧
    nodesAcc S (callsFile st ims path cs) = S := by
  induction cs with
  | nil => exact ⟨trivial, rfl⟩
  | cons callee cs ih =>
    cases hres : resolveCall st ims path callee with
    | none =>
      have heq : callsFile st ims path (callee :: cs) = callsFile st ims path cs := by
        simp [callsFile, hres]
      rw [heq]; exact ih
    | some r =>
      have heq : callsFile st ims path (callee :: cs)
          = .addEdge { fromId := deriveFileId path, toId := r.nodeId, type := .CALLS }
              :: callsFile st ims path cs := by
        simp [callsFile, hres]
      rw [heq]
      exact ⟨⟨hpath, resolveCall_nodeId_mem st ims path callee r S hst hres, ih.1⟩, ih.2⟩

theorem callsFiles_spec (fs : List FileInput) (st : SymbolTable) (ims : ImportMaps)
    (S : List String)
    (hst : st.idsIn S) (hpaths : ∀ f ∈ fs, deriveFileId f.path ∈ S) :
    ClosedFrom S (callsFiles st ims fs) ∧
    nodesAcc S (callsFiles st ims fs) = S := by
  induction fs with
  | nil => exact ⟨trivial, rfl⟩
  | cons f fs ih =>
    have hone := callsFile_spec f.calls st ims f.path S hst
      (hpaths f (List.mem_cons_self _ _))
    have ihf := ih (fun g hg => hpaths g (List.mem_cons_of_mem _ hg))
    constructor
    · show ClosedFrom S (callsFile st ims f.path f.calls ++ _)
      refine (closedFrom_append _ _ _).mpr ⟨hone.1, ?_⟩
      rw [hone.2]
      exact ihf.1
    · show nodesAcc S (callsFile st ims f.path f.calls ++ _) = S
      rw [nodesAcc_append, hone.2, ihf.2]

/-! ## Full pipeline and orchestrator -/

/-- The final output graph: node set and edge set. -/
structure Graph where
  nodes : List CodeNode
  edges : List CodeRelation
  deriving DecidableEq, Repr

/-- The creation-event trace of one full run: Structure, then Parse, then
Imports, then Calls, in the strict phase order (Extract fixes the input
snapshot and creates nothing). -/
def pipelineEvents (input : PipelineInput) : List GraphEvent :=
  let paths := input.files.map FileInput.path
  (structPhase paths).2
    ++ (parseFiles SymbolTable.empty input.files).2
    ++ ((importsFiles paths input.files).2
      ++ callsFiles (parseFiles SymbolTable.empty input.files).1
          (importsFiles paths input.files).1 input.files)

/-- The pipeline as a function of the input snapshot. -/
def runPipeline (input : PipelineInput) : Graph where
  nodes := eventsNodes (pipelineEvents input)
  edges := eventsEdges (pipelineEvents input)

theorem pipelineEvents_closed (input : PipelineInput) :
    ClosedFrom [] (pipelineEvents input) := by
  have hstruct := structPhase_spec (input.files.map FileInput.path)
  set paths := input.files.map FileInput.path with hpaths
  set S₁ := nodesAcc [] (structPhase paths).2 with hS₁
  have hfiles₁ : ∀ f ∈ input.files, deriveFileId f.path ∈ S₁ := by
    intro f hf
    exact hstruct.2.1 _ (hstruct.2.2 f.path (List.mem_map_of_mem _ hf))
  have hparse := parseFiles_spec input.files SymbolTable.empty S₁
    (empty_idsIn S₁) hfiles₁
  set S₂ := nodesAcc S₁ (parseFiles SymbolTable.empty input.files).2 with hS₂
  have hfiles₂ : ∀ f ∈ input.files, deriveFileId f.path ∈ S₂ := by
    intro f hf
    exact mem_nodesAcc_of_mem _ _ _ (hfiles₁ f hf)
  have hpathsIn : ∀ p ∈ paths, deriveFileId p ∈ S₂ := by
    intro p hp
    rw [hpaths] at hp
    obtain ⟨f, hf, rfl⟩ := List.mem_map.mp hp
    exact hfiles₂ f hf
  have himports := importsFiles_spec input.files paths S₂ hpathsIn hfiles₂
  have hcalls := callsFiles_spec input.files
    (parseFiles SymbolTable.empty input.files).1
    (importsFiles paths input.files).1 S₂ hparse.2 hfiles₂
  have key : ClosedFrom []
      (((structPhase paths).2 ++ (parseFiles SymbolTable.empty input.files).2)
        ++ ((importsFiles paths input.files).2
          ++ callsFiles (parseFiles SymbolTable.empty input.files).1
              (importsFiles paths input.files).1 input.files)) := by
    rw [closedFrom_append]
    constructor
    · rw [closedFrom_append]
      exact ⟨hstruct.1, hparse.1⟩
    · rw [nodesAcc_append, closedFrom_append]
      refine ⟨himports.1, ?_⟩
      rw [himports.2.1]
      exact hcalls.1
  exact key

/-- The phase sequence of the orchestrator (§4.7). -/
inductive RunPhase where
  | extracting | structuring | parsing | importing | calling | done
  deriving DecidableEq, Repr

/-- The orchestrator's run state: current phase, the immutable input
snapshot, the creation events so far, and the run's shared SymbolTable
and import maps. -/
structure RunState where
  phase : RunPhase
  input : PipelineInput
  events : List GraphEvent
  symbols : SymbolTable
  importMaps : ImportMaps
  deriving DecidableEq, Repr

/-- The initial state of a run on an input snapshot. -/
def initState (input : PipelineInput) : RunState where
  phase := .extracting
  input := input
  events := []
  symbols := .empty
  importMaps := []

/-- Modelled from the spec: the orchestrator's transition function — each
phase fully commits its output before the next phase begins, in the strict
order Extract → Structure → Parse → Imports → Calls → Done. -/
def stepFn (s : RunState) : RunState :=
  match s.phase with
  | .extracting => { s with phase := .structuring }
  | .structuring =>
    { s with phase := .parsing,
             events := s.events ++ (structPhase (s.input.files.map FileInput.path)).2 }
  | .parsing =>
    { s with phase := .importing,
             events := s.events ++ (parseFiles s.symbols s.input.files).2,
             symbols := (parseFiles s.symbols s.input.files).1 }
  | .importing =>
    { s with phase := .calling,
             events := s.events
               ++ (importsFiles (s.input.files.map FileInput.path) s.input.files).2,
             importMaps := (importsFiles (s.input.files.map FileInput.path) s.input.files).1 }
  | .calling =>
    { s with phase := .done,
             events := s.events ++ callsFiles s.symbols s.importMaps s.input.files }
  | .done => s

/-- One orchestrator step: any non-terminal state advances by `stepFn`.
The relation has no other source of behaviour, reflecting the
single-threaded, deterministic control flow of §5. -/
inductive Step : RunState → RunState → Prop where
  | mk (s : RunState) (h : s.phase ≠ .done) : Step s (stepFn s)

/-- A complete run: from the initial state, some finite step sequence
reaches a `done` state whose event trace denotes the graph `g`. -/
def RunsTo (input : PipelineInput) (g : Graph) : Prop :=
  ∃ s, Relation.ReflTransGen Step (initState input) s ∧ s.phase = .done ∧
    g = { nodes := eventsNodes s.events, edges := eventsEdges s.events }

theorem step_deterministic {s t₁ t₂ : RunState}
    (h₁ : Step s t₁) (h₂ : Step s t₂) : t₁ = t₂ := by
  cases h₁; cases h₂; rfl

theorem done_no_step {s t : RunState} (hdone : s.phase = .done) : ¬ Step s t := by
  intro h
  cases h with
  | mk hne => exact hne hdone

theorem reflTransGen_done_unique {a s₁ s₂ : RunState}
    (h₁ : Relation.ReflTransGen Step a s₁) (hd₁ : s₁.phase = .done)
    (h₂ : Relation.ReflTransGen Step a s₂) (hd₂ : s₂.phase = .done) :
    s₁ = s₂ := by
  revert h₂
  induction h₁ using Relation.ReflTransGen.head_induction_on with
  | refl =>
    intro h₂
    rcases Relation.ReflTransGen.cases_head h₂ with heq | ⟨c, hc, -⟩
    · exact heq
    · exact absurd hc (done_no_step hd₁)
  | head hab hbs ih =>
    intro h₂
    rcases Relation.ReflTransGen.cases_head h₂ with heq | ⟨c, hc, hcs⟩
    · rw [heq] at hab
      exact absurd hab (done_no_step hd₂)
    · have hbc := step_deterministic hab hc
      exact ih (hbc ▸ hcs)

/-- The five-step run of the orchestrator on an input. -/
theorem runsTo_runPipeline (input : PipelineInput) :
    RunsTo input (runPipeline input) := by
  refine ⟨stepFn (stepFn (stepFn (stepFn (stepFn (initState input))))), ?_, rfl, ?_⟩
  · have h1 : Step (initState input) (stepFn (initState input)) :=
      .mk _ (fun h => nomatch h)
    have h2 : Step (stepFn (initState input)) (stepFn (stepFn (initState input))) :=
      .mk _ (fun h => nomatch h)
    have h3 : Step (stepFn (stepFn (initState input)))
        (stepFn (stepFn (stepFn (initState input)))) :=
      .mk _ (fun h => nomatch h)
    have h4 : Step (stepFn (stepFn (stepFn (initState input))))
        (stepFn (stepFn (stepFn (stepFn (initState input))))) :=
      .mk _ (fun h => nomatch h)
    have h5 : Step (stepFn (stepFn (stepFn (stepFn (initState input)))))
        (stepFn (stepFn (stepFn (stepFn (stepFn (initState input)))))) :=
      .mk _ (fun h => nomatch h)
    exact .trans (.single h1) (.trans (.single h2) (.trans (.single h3)
      (.trans (.single h4) (.single h5))))
  · have hev : (stepFn (stepFn (stepFn (stepFn (stepFn (initState input)))))).events
        = pipelineEvents input := by
      show (((([] ++ (structPhase (input.files.map FileInput.path)).2)
            ++ (parseFiles SymbolTable.empty input.files).2)
            ++ (importsFiles (input.files.map FileInput.path) input.files).2)
            ++ callsFiles (parseFiles SymbolTable.empty input.files).1
                (importsFiles (input.files.map FileInput.path) input.files).1 input.files)
          = pipelineEvents input
      simp [pipelineEvents, List.append_assoc]
    rw [hev]
    rfl

/-! ## Claim theorems -/

/-- C1: for every node id and embedding vector, `updateNodeEmbedding` (and
its iteration `batchUpdateEmbeddings`) only SETs the embedding column of
the matching node: the edge table and every non-embedding column of every
node are unchanged, so CodeNodes stay immutable except for `embedding`. -/
theorem updateNodeEmbedding_only_sets_embedding :
    ∀ (α : Type) (db : GraphDB α) (nodeId : String) (v : List α)
      (updates : List (String × List α)),
      (updateNodeEmbedding db nodeId v).edges = db.edges ∧
      (updateNodeEmbedding db nodeId v).nodes.length = db.nodes.length ∧
      (∀ i : Nat,
        ((updateNodeEmbedding db nodeId v).nodes[i]?).map NodeRow.nonEmbeddingFields
          = (db.nodes[i]?).map NodeRow.nonEmbeddingFields) ∧
      (batchUpdateEmbeddings db updates).edges = db.edges ∧
      (∀ i : Nat,
        ((batchUpdateEmbeddings db updates).nodes[i]?).map NodeRow.nonEmbeddingFields
          = (db.nodes[i]?).map NodeRow.nonEmbeddingFields) := by
  intro α db nodeId v updates
  refine ⟨updateNodeEmbedding_edges db nodeId v, ?_,
    updateNodeEmbedding_frame db nodeId v,
    batchUpdateEmbeddings_edges db updates,
    batchUpdateEmbeddings_frame db updates⟩
  simp [updateNodeEmbedding]

/-- An output field equals the named property when present, and the
positional element otherwise. -/
def fallsBackTo (out named posv : Option JsValue) : Prop :=
  (∀ v, named = some v → out = some v) ∧ (named = none → out = posv)

theorem orElse_fallsBack (a b : Option JsValue) : fallsBackTo (a <|> b) a b := by
  constructor
  · intro v hv; rw [hv]; rfl
  · intro hv; rw [hv]; cases b <;> rfl

/-- C2: the row mappings of `queryEmbeddableNodes` and `semanticSearch`
read each field by name and fall back to the fixed positional index
(`queryEmbeddableNodes`: id at 0, name at 1, label at 2, filePath at 3,
content at 4, startLine at 5, endLine at 6; `semanticSearch`: nodeId at 0
and distance at 4 in place of id and content); `content` further defaults
to the empty string when both accesses are absent. -/
theorem row_mapping_named_with_positional_fallback :
    ∀ row : QueryRow,
      fallsBackTo (mapEmbeddableRow row).id (row.named "id") (row.pos 0) ∧
      fallsBackTo (mapEmbeddableRow row).name (row.named "name") (row.pos 1) ∧
      fallsBackTo (mapEmbeddableRow row).label (row.named "label") (row.pos 2) ∧
      fallsBackTo (mapEmbeddableRow row).filePath (row.named "filePath") (row.pos 3) ∧
      fallsBackTo (mapEmbeddableRow row).startLine (row.named "startLine") (row.pos 5) ∧
      fallsBackTo (mapEmbeddableRow row).endLine (row.named "endLine") (row.pos 6) ∧
      (∀ v, row.named "content" = some v → (mapEmbeddableRow row).content = v) ∧
      (row.named "content" = none →
        ∀ v, row.pos 4 = some v → (mapEmbeddableRow row).content = v) ∧
      (row.named "content" = none → row.pos 4 = none →
        (mapEmbeddableRow row).content = .str "") ∧
      fallsBackTo (mapSemanticSearchRow row).nodeId (row.named "nodeId") (row.pos 0) ∧
      fallsBackTo (mapSemanticSearchRow row).name (row.named "name") (row.pos 1) ∧
      fallsBackTo (mapSemanticSearchRow row).label (row.named "label") (row.pos 2) ∧
      fallsBackTo (mapSemanticSearchRow row).filePath (row.named "filePath") (row.pos 3) ∧
      fallsBackTo (mapSemanticSearchRow row).distance (row.named "distance") (row.pos 4) ∧
      fallsBackTo (mapSemanticSearchRow row).startLine (row.named "startLine") (row.pos 5) ∧
      fallsBackTo (mapSemanticSearchRow row).endLine (row.named "endLine") (row.pos 6) := by
  intro row
  refine ⟨orElse_fallsBack _ _, orElse_fallsBack _ _, orElse_fallsBack _ _,
    orElse_fallsBack _ _, orElse_fallsBack _ _, orElse_fallsBack _ _,
    ?_, ?_, ?_,
    orElse_fallsBack _ _, orElse_fallsBack _ _, orElse_fallsBack _ _,
    orElse_fallsBack _ _, orElse_fallsBack _ _, orElse_fallsBack _ _,
    orElse_fallsBack _ _⟩
  · intro v hv
    show ((row.named "content" <|> row.pos 4)).getD (.str "") = v
    rw [hv]; rfl
  · intro hn v hp
    show ((row.named "content" <|> row.pos 4)).getD (.str "") = v
    rw [hn, hp]; rfl
  · intro hn hp
    show ((row.named "content" <|> row.pos 4)).getD (.str "") = .str ""
    rw [hn, hp]; rfl

/-- A concrete row with id present by name, name absent both ways, and
content present only positionally, exercising both sides of the fallback. -/
def witnessRow : QueryRow where
  named := fun k => if k = "id" then some (.str "n1") else none
  pos := fun i => if i = 0 then some (.str "p0")
    else if i = 4 then some (.str "c4") else none

/-- Witness for C2 at `witnessRow`. -/
theorem row_mapping_named_with_positional_fallback_check :
    (mapEmbeddableRow witnessRow).id = some (.str "n1") ∧
    (mapEmbeddableRow witnessRow).name = witnessRow.pos 1 ∧
    (mapEmbeddableRow witnessRow).content = .str "c4" ∧
    (mapSemanticSearchRow witnessRow).nodeId = witnessRow.pos 0 := by
  have h := row_mapping_named_with_positional_fallback witnessRow
  refine ⟨h.1.1 _ (by decide), h.2.1.2 (by decide), ?_, (h.2.2.2.2.2.2.2.2.2.1).2 (by decide)⟩
  exact h.2.2.2.2.2.2.2.1 (by decide) _ (by decide)

theorem AstCache.runOps_capacity (c : AstCache T) (ops : List (CacheOp T)) :
    (c.runOps ops).capacity = c.capacity := by
  induction ops generalizing c with
  | nil => rfl
  | cons op rest ih =>
    have := ih (c.applyOp op)
    simpa [AstCache.runOps, c.applyOp_capacity op] using this

/-- C3: over any `get`/`set` sequence from an empty cache of capacity
`C > 0` the entry count never exceeds `C`; a `get` hit promotes the entry
to most-recently-used; a `set` of a fresh key on a full cache evicts
exactly the least-recently-accessed entry and logs its release exactly
once, before the new entry sits at the front. -/
theorem astCache_bounded_and_evicts_lru :
    ∀ (T : Type) (C : Nat) (ops : List (CacheOp T)), 0 < C →
      (((AstCache.empty T C).runOps ops).entries.length ≤ C ∧
        (∀ (c : AstCache T) (p : String) (t : T),
          c.entries.lookup p = some t →
            (c.get p).1 = some t ∧
            ((c.get p).2).entries = (p, t) :: removeKey c.entries p) ∧
        (∀ (c : AstCache T) (p : String) (t : T) (lru : String × T),
          c.entries.length = c.capacity →
          c.entries.lookup p = none →
          c.entries.getLast? = some lru →
            (c.set p t).entries = (p, t) :: c.entries.dropLast ∧
            (c.set p t).released = c.released ++ [lru.2])) := by
  intro T C ops hC
  refine ⟨?_, ?_, ?_⟩
  · have h := AstCache.runOps_length (AstCache.empty T C) ops hC (by simp [AstCache.empty])
    rwa [AstCache.runOps_capacity] at h
  · intro c p t hl
    unfold AstCache.get
    rw [hl]
    exact ⟨rfl, rfl⟩
  · intro c p t lru hfull hl hlast
    unfold AstCache.set
    rw [hl]
    have hcap : c.capacity ≤ c.entries.length := le_of_eq hfull.symm
    rw [if_pos hcap, hlast]
    exact ⟨rfl, rfl⟩

/-- Witness for C3: capacity 2, three sets and a get; the full cache
`[("b", 2), ("a", 1)]` (MRU first) evicts `("a", 1)` on the next fresh
set and logs exactly that release. -/
theorem astCache_bounded_and_evicts_lru_check :
    (0 < 2 ∧
      ((AstCache.empty Nat 2).runOps
        [.set "a" 1, .set "b" 2, .get "a", .set "c" 3]).entries.length ≤ 2) ∧
    ((⟨2, [("b", 2), ("a", 1)], []⟩ : AstCache Nat).set "c" 3).entries
        = [("c", 3), ("b", 2)] ∧
    ((⟨2, [("b", 2), ("a", 1)], []⟩ : AstCache Nat).set "c" 3).released = [1] := by
  have h := astCache_bounded_and_evicts_lru Nat 2
    [.set "a" 1, .set "b" 2, .get "a", .set "c" 3] (by decide)
  refine ⟨⟨by decide, h.1⟩, ?_, ?_⟩
  · have := (h.2.2 ⟨2, [("b", 2), ("a", 1)], []⟩ "c" 3 ("a", 1)
      (by decide) (by decide) (by decide)).1
    rw [this]; rfl
  · have := (h.2.2 ⟨2, [("b", 2), ("a", 1)], []⟩ "c" 3 ("a", 1)
      (by decide) (by decide) (by decide)).2
    rw [this]; rfl

/-- C4: CallResolver applies the three tiers in the fixed order import-map,
local scope, global fallback, stopping at the first tier that yields a
definition; in particular a file `b` that both locally defines `foo`
and imports a different `foo` from file `a` binds a call to `foo()` to
`a`'s definition, never to its own local one or a global collision. -/
theorem callResolver_fixed_tier_priority :
    (∀ (st : SymbolTable) (ims : ImportMaps) (file name nodeId : String),
      (lookupImportAlias ims file name).bind (fun t => st.lookupLocal t name)
          = some nodeId →
        resolveCall st ims file name = some (.importMap nodeId)) ∧
    (∀ (st : SymbolTable) (ims : ImportMaps) (file name nodeId : String),
      (lookupImportAlias ims file name).bind (fun t => st.lookupLocal t name) = none →
      st.lookupLocal file name = some nodeId →
        resolveCall st ims file name = some (.localScope nodeId)) ∧
    (∀ (st : SymbolTable) (ims : ImportMaps) (file name : String),
      (lookupImportAlias ims file name).bind (fun t => st.lookupLocal t name) = none →
      st.lookupLocal file name = none →
        resolveCall st ims file name
          = ((st.lookupGlobal name).head?).map (fun d => .globalFallback d.nodeId)) ∧
    (∀ (st : SymbolTable) (ims : ImportMaps) (a b idA idB : String),
      lookupImportAlias ims b "foo" = some a →
      st.lookupLocal a "foo" = some idA →
      st.lookupLocal b "foo" = some idB →
        resolveCall st ims b "foo" = some (.importMap idA)) := by
  refine ⟨resolveCall_tier1, resolveCall_tier2, resolveCall_tier3, ?_⟩
  intro st ims a b idA idB h1 h2 h3
  exact resolveCall_tier1 st ims b "foo" idA (by rw [Option.bind_eq_some]; exact ⟨a, h1, h2⟩)

/-- The symbol table of the C4 witness: `a.ts` and `b.ts` each define
`foo`. -/
def witnessSymbols : SymbolTable :=
  (SymbolTable.empty.register "a.ts" "foo" "a.ts::foo" "Function").register
    "b.ts" "foo" "b.ts::foo" "Function"

/-- The import maps of the C4 witness: `b.ts` imports `foo` from `a.ts`. -/
def witnessImports : ImportMaps := [("b.ts", [("foo", "a.ts")])]

/-- Witness for C4: with both a local `foo` in `b.ts` and an imported
`foo` from `a.ts`, the call binds to `a.ts`'s definition. -/
theorem callResolver_fixed_tier_priority_check :
    resolveCall witnessSymbols witnessImports "b.ts" "foo"
      = some (.importMap "a.ts::foo") := by
  exact (callResolver_fixed_tier_priority).2.2.2 witnessSymbols witnessImports
    "a.ts" "b.ts" "a.ts::foo" "b.ts::foo" (by decide) (by decide) (by decide)

theorem runsTo_unique (input : PipelineInput) (g : Graph)
    (h : RunsTo input g) : g = runPipeline input := by
  obtain ⟨s, hs, hdone, hg⟩ := h
  obtain ⟨s₀, hs₀, hdone₀, hg₀⟩ := runsTo_runPipeline input
  have heq : s = s₀ := reflTransGen_done_unique hs hdone hs₀ hdone₀
  rw [hg, heq, ← hg₀]

/-- C5: the pipeline is a deterministic function of its input snapshot —
any two complete runs on byte-identical input produce identical node and
edge sets, and every complete run produces exactly `runPipeline input`,
whose node ids come from the deterministic derivations `deriveFileId` and
`declId` (the same path or declaration yields the same id in every run). -/
theorem pipeline_deterministic :
    (∀ (input : PipelineInput) (g₁ g₂ : Graph),
      RunsTo input g₁ → RunsTo input g₂ → g₁.nodes = g₂.nodes ∧ g₁.edges = g₂.edges) ∧
    (∀ (input : PipelineInput) (g : Graph), RunsTo input g → g = runPipeline input) := by
  constructor
  · intro input g₁ g₂ h₁ h₂
    rw [runsTo_unique input g₁ h₁, runsTo_unique input g₂ h₂]
    exact ⟨rfl, rfl⟩
  · exact runsTo_unique

/-- The input snapshot of the C5 and C6 witnesses: one file `a.ts`
defining a function `foo` and calling `foo` and an unresolvable `bar`. -/
def witnessInput : PipelineInput where
  files := [{ path := "a.ts",
              decls := [{ name := "foo", kind := .Function, startLine := 1,
                          endLine := 2, content := "function foo() {}" }],
              importSpecs := [],
              calls := ["foo", "bar"] }]

/-- Witness for C5: two complete runs of the orchestrator on the same
snapshot yield equal node and edge sets. -/
theorem pipeline_deterministic_check :
    (runPipeline witnessInput).nodes = (runPipeline witnessInput).nodes ∧
    (runPipeline witnessInput).edges = (runPipeline witnessInput).edges := by
  exact (pipeline_deterministic).1 witnessInput (runPipeline witnessInput)
    (runPipeline witnessInput) (runsTo_runPipeline witnessInput)
    (runsTo_runPipeline witnessInput)

/-- C6: at every point of a run, every edge created so far refers only to
nodes already present at its creation (`ClosedFrom [] trace`), and hence
every endpoint of every edge of the final output is present in the final
node set. -/
theorem pipeline_edge_endpoints_present :
    ∀ input : PipelineInput,
      ClosedFrom [] (pipelineEvents input) ∧
      ∀ e ∈ (runPipeline input).edges,
        e.fromId ∈ (runPipeline input).nodes.map CodeNode.id ∧
        e.toId ∈ (runPipeline input).nodes.map CodeNode.id := by
  intro input
  refine ⟨pipelineEvents_closed input, ?_⟩
  intro e he
  have h := closedFrom_edges (pipelineEvents input) [] (pipelineEvents_closed input) e he
  constructor
  · rcases (mem_nodesAcc_iff _ _ _).mp h.1 with h0 | h1
    · simp at h0
    · exact h1
  · rcases (mem_nodesAcc_iff _ _ _).mp h.2 with h0 | h1
    · simp at h0
    · exact h1

/-- Witness for C6: in the run on `witnessInput`, the DEFINES edge from
`a.ts` to `a.ts::foo` exists and both endpoints are in the node set. -/
theorem pipeline_edge_endpoints_present_check :
    (⟨"a.ts", "a.ts::foo", .DEFINES⟩ : CodeRelation) ∈ (runPipeline witnessInput).edges ∧
    "a.ts" ∈ (runPipeline witnessInput).nodes.map CodeNode.id ∧
    "a.ts::foo" ∈ (runPipeline witnessInput).nodes.map CodeNode.id := by
  have hmem : (⟨"a.ts", "a.ts::foo", .DEFINES⟩ : CodeRelation)
      ∈ (runPipeline witnessInput).edges := by decide
  exact ⟨hmem, (pipeline_edge_endpoints_present witnessInput).2 _ hmem⟩

/-- C7: the embedding model is process-wide singleton state — with an
instance present every `initEmbedder` call returns that same instance,
changes nothing and starts no load; with an initialization in flight the
in-flight promise is returned and no second load starts; after a
successful resolution every later call returns the resolved instance; and
`isEmbedderReady` is true exactly when an instance exists. -/
theorem embedder_singleton_idempotent :
    (∀ (s : EmbedderState) (p inst : Nat), s.embedderInstance = some inst →
      initEmbedder s p = (.cached inst, s, 0)) ∧
    (∀ (s : EmbedderState) (p q : Nat), s.embedderInstance = none →
      s.isInitializing = true → s.initPromise = some q →
      initEmbedder s p = (.inflight q, s, 0)) ∧
    (∀ (s : EmbedderState) (inst p : Nat),
      initEmbedder (resolveInit s (some inst)) p
        = (.cached inst, resolveInit s (some inst), 0)) ∧
    (∀ s : EmbedderState, isEmbedderReady s = true ↔ s.embedderInstance ≠ none) := by
  refine ⟨?_, ?_, ?_, ?_⟩
  · intro s p inst h
    unfold initEmbedder
    rw [h]
  · intro s p q h1 h2 h3
    rcases s with ⟨ei, ii, ip⟩
    dsimp only at h1 h2 h3
    subst h1; subst h2; subst h3
    simp [initEmbedder]
  · intro s inst p
    unfold initEmbedder resolveInit
    rfl
  · intro s
    cases h : s.embedderInstance <;> simp [isEmbedderReady, h]

/-- Witness for C7: a loaded state returns its cached instance, an
in-flight state returns its promise, and a resolved state is ready. -/
theorem embedder_singleton_idempotent_check :
    initEmbedder ⟨some 7, false, some 3⟩ 9 = (.cached 7, ⟨some 7, false, some 3⟩, 0) ∧
    initEmbedder ⟨none, true, some 3⟩ 9 = (.inflight 3, ⟨none, true, some 3⟩, 0) ∧
    initEmbedder (resolveInit ⟨none, true, some 3⟩ (some 5)) 9
      = (.cached 5, resolveInit ⟨none, true, some 3⟩ (some 5), 0) ∧
    (isEmbedderReady ⟨some 7, false, some 3⟩ = true ↔
      (⟨some 7, false, some 3⟩ : EmbedderState).embedderInstance ≠ none) := by
  exact ⟨embedder_singleton_idempotent.1 _ 9 7 rfl,
    embedder_singleton_idempotent.2.1 _ 9 3 rfl rfl rfl,
    embedder_singleton_idempotent.2.2.1 ⟨none, true, some 3⟩ 5 9,
    embedder_singleton_idempotent.2.2.2 _⟩

theorem embedBatch_eq_slices (e : EmbedderModel α) (texts : List String) :
    embedBatch (some e) texts = .ok (embedSlices e texts) := by
  unfold embedBatch
  split
  · rename_i hempty
    have : texts = [] := List.isEmpty_iff.mp hempty
    subst this
    rfl
  · rfl

/-- C8: `embedBatch` on `n` texts returns exactly `n` vectors, the i-th
being the slice of the flat model output from `i * 384` to `(i + 1) * 384`
and each of exactly 384 entries (given the documented `[batch, 384]`
output shape), matching the `FLOAT[384]` embedding column; the empty list
returns `[]` before the embedder is consulted, succeeding even
uninitialized. -/
theorem embedBatch_shape :
    (∀ (α : Type) (emb : Option (EmbedderModel α)), embedBatch emb [] = .ok []) ∧
    (∀ (α : Type) (e : EmbedderModel α) (texts : List String),
      (e.run texts).length = texts.length * dimensions →
      ∃ vs, embedBatch (some e) texts = .ok vs ∧
        vs.length = texts.length ∧
        (∀ i, i < texts.length →
          vs[i]? = some (((e.run texts).drop (i * dimensions)).take dimensions)) ∧
        (∀ v ∈ vs, v.length = dimensions)) ∧
    dimensions = 384 ∧
    nodeSchemaEmbeddingType = "FLOAT[" ++ toString dimensions ++ "]" := by
  refine ⟨?_, ?_, rfl, rfl⟩
  · intro α emb
    rfl
  · intro α e texts hlen
    refine ⟨embedSlices e texts, embedBatch_eq_slices e texts, embedSlices_length e texts,
      fun i hi => embedSlices_getElem? e texts i hi,
      fun v hv => embedSlices_vec_length e texts hlen v hv⟩

/-- The embedder model of the C8 witness: the flat output for a batch is
`[0, 1, 2, …]` of the exact `[batch, 384]` size. -/
def witnessModel : EmbedderModel Int where
  run := fun ts => (List.range (ts.length * 384)).map Int.ofNat
  single := fun _ => []

/-- Witness for C8 at two texts: two vectors come back, the second is the
slice from 384 to 768, and every vector has 384 entries. -/
theorem embedBatch_shape_check :
    (witnessModel.run ["a", "b"]).length = (["a", "b"] : List String).length * dimensions ∧
    ∃ vs, embedBatch (some witnessModel) ["a", "b"] = .ok vs ∧
      vs.length = (["a", "b"] : List String).length ∧
      (∀ i, i < (["a", "b"] : List String).length →
        vs[i]? = some (((witnessModel.run ["a", "b"]).drop (i * dimensions)).take dimensions)) ∧
      (∀ v ∈ vs, v.length = dimensions) := by
  have hlen : (witnessModel.run ["a", "b"]).length
      = (["a", "b"] : List String).length * dimensions := by
    simp [witnessModel, dimensions]
  exact ⟨hlen, embedBatch_shape.2.1 Int witnessModel ["a", "b"] hlen⟩

/-- C9: when the embeddable-node query returns zero rows, the embedding
pipeline reports `ready` at 100 % with 0 of 0 nodes and returns without
any `embedBatch` call, any node-update query, or vector-index creation. -/
theorem runEmbeddingPipeline_zero_nodes :
    ∀ (α : Type) (e : EmbedderModel α) (batchSize : Nat),
      runEmbeddingPipeline e [] batchSize
        = [.progress { phase := "loading-model", percent := 0,
                        modelDownloadPercent := some 0 },
           .progress { phase := "loading-model", percent := 20,
                        modelDownloadPercent := some 100 },
           .progress { phase := "ready", percent := 100,
                        nodesProcessed := some 0, totalNodes := some 0 }] ∧
      countEmbedCalls (runEmbeddingPipeline e [] batchSize) = 0 ∧
      countNodeUpdates (runEmbeddingPipeline e [] batchSize) = 0 ∧
      countIndexCreations (runEmbeddingPipeline e [] batchSize) = 0 := by
  intro α e batchSize
  exact ⟨rfl, rfl, rfl, rfl⟩

/-- C10: `semanticSearch` and `semanticSearchWithContext` throw
`Embedding model not initialized. Run embedding pipeline first.` exactly
when the embedder is not ready, executing no query in that case; when
ready they succeed and execute exactly one query. -/
theorem semanticSearch_requires_ready_embedder :
    ∀ (α : Type) (s : EmbedderState) (e : EmbedderModel α)
      (execVec : VectorSearchQuery α → List QueryRow)
      (execCtx : ContextSearchQuery α → List QueryRow)
      (query : String) (k₁ k₂ : Nat) (maxDistance : ℚ) (hops : Nat),
      (isEmbedderReady s = false →
        semanticSearch s e execVec query k₁ maxDistance
          = (.error "Embedding model not initialized. Run embedding pipeline first.", 0) ∧
        semanticSearchWithContext s e execCtx query k₂ hops
          = (.error "Embedding model not initialized. Run embedding pipeline first.", 0)) ∧
      (isEmbedderReady s = true →
        (∃ results, semanticSearch s e execVec query k₁ maxDistance = (.ok results, 1)) ∧
        (∃ rows, semanticSearchWithContext s e execCtx query k₂ hops = (.ok rows, 1))) := by
  intro α s e execVec execCtx query k₁ k₂ maxDistance hops
  constructor
  · intro h
    unfold semanticSearch semanticSearchWithContext
    rw [h]
    exact ⟨rfl, rfl⟩
  · intro h
    unfold semanticSearch semanticSearchWithContext
    rw [h]
    exact ⟨⟨_, rfl⟩, ⟨_, rfl⟩⟩

/-- Witness for C10: an uninitialized state errors with zero queries; a
loaded state succeeds with one query. -/
theorem semanticSearch_requires_ready_embedder_check :
    (semanticSearch ⟨none, false, none⟩ witnessModel (fun _ => []) "q" 10 (1 / 2)
        = (.error "Embedding model not initialized. Run embedding pipeline first.", 0) ∧
      semanticSearchWithContext ⟨none, false, none⟩ witnessModel (fun _ => []) "q" 5 2
        = (.error "Embedding model not initialized. Run embedding pipeline first.", 0)) ∧
    ((∃ results, semanticSearch ⟨some 1, false, some 0⟩ witnessModel (fun _ => []) "q" 10 (1 / 2)
        = (.ok results, 1)) ∧
      (∃ rows, semanticSearchWithContext ⟨some 1, false, some 0⟩ witnessModel (fun _ => []) "q" 5 2
        = (.ok rows, 1))) := by
  exact ⟨(semanticSearch_requires_ready_embedder Int ⟨none, false, none⟩ witnessModel
      (fun _ => []) (fun _ => []) "q" 10 5 (1 / 2) 2).1 rfl,
    (semanticSearch_requires_ready_embedder Int ⟨some 1, false, some 0⟩ witnessModel
      (fun _ => []) (fun _ => []) "q" 10 5 (1 / 2) 2).2 rfl⟩

end GitNexus
